import Mathlib

/-!
Verification of the catalog reconciliation engine of the `romu` repository.

The persistent SQLite store is modelled as an explicit `Catalog` state
(lists of game rows and rom-file rows plus surrogate-key counters); each Go
store operation (`UpsertRomFile`, `MatchROMs`, `MatchByGameList`,
`UpdateGameMetadata`, the scanner's `scanZipContents`, and the DAT header
platform detection `detectPlatformFromHeader`) is translated into a pure
state-passing function over `Catalog`.  SQL `UPDATE ... WHERE` statements
become in-place `List.map`, `INSERT` becomes append with the next surrogate
key, and `SELECT` becomes `List.filter`/`List.find?`.  Timestamp columns
(`created_at`/`updated_at`) are omitted: no claim mentions them.
-/

namespace Romu

/-- One row of the `games` table (part_003 schema).  Nullable TEXT columns
are `Option String`; `platform` is NOT NULL. -/
structure Game where
  id : Nat
  title_en : Option String
  title_ja : Option String
  description_ja : Option String
  platform : String
  developer : Option String
  publisher : Option String
  release_date : Option String
  genre : Option String
  players : Option String
  rating : Option String
deriving DecidableEq

/-- One row of the `rom_files` table: `path` is the UNIQUE identity key,
`game_id` the nullable foreign key to `games`. -/
structure RomFile where
  id : Nat
  path : String
  filename : String
  size : Int
  hash_crc32 : String
  hash_md5 : String
  hash_sha1 : String
  platform : String
  game_id : Option Nat
deriving DecidableEq

/-- The whole persistent store.  `next_game_id`/`next_rom_id` model the
INTEGER PRIMARY KEY surrogate-key generator. -/
structure Catalog where
  games : List Game
  rom_files : List RomFile
  next_game_id : Nat
  next_rom_id : Nat
deriving DecidableEq

/-- db.DATRom: one canonical checksum record handed to import/match. -/
structure DATRom where
  gameTitle : String
  platform : String
  crc32 : String
  md5 : String
  sha1 : String
  size : Int
deriving DecidableEq

/-- db.GameListEntry (part_003 shape): one parsed gamelist.xml entry. -/
structure GameListEntry where
  filename : String
  name : String
  desc : String
  releaseDate : String
  developer : String
  publisher : String
  genre : String
  players : String
  rating : String
deriving DecidableEq

/-- One entry of a ZIP container as the scanner sees it: its internal name,
directory flag, uncompressed size and the three digests the fingerprinter
would produce for its decompressed bytes. -/
structure ZipEntry where
  name : String
  isDir : Bool
  size : Int
  crc32 : String
  md5 : String
  sha1 : String
deriving DecidableEq

/-! ### String helpers (List Char based, executable) -/

/-- ASCII lowering of one character, as Go's `strings.ToLower` acts on the
ASCII range used by the DAT headers. -/
def lowerChar (c : Char) : Char :=
  if 65 ≤ c.toNat ∧ c.toNat ≤ 90 then Char.ofNat (c.toNat + 32) else c

/-- Boolean list-prefix test. -/
def prefOf : List Char → List Char → Bool
  | [], _ => true
  | _ :: _, [] => false
  | a :: as, b :: bs => decide (a = b) && prefOf as bs

/-- Boolean substring (contiguous sub-list) test. -/
def infOf (p : List Char) : List Char → Bool
  | [] => p.isEmpty
  | c :: t => prefOf p (c :: t) || infOf p t

/-- Boolean list-suffix test. -/
def sufOf (p s : List Char) : Bool :=
  prefOf p.reverse s.reverse

/-- Go `strings.Contains` on the raw strings. -/
def strContains (s p : String) : Bool :=
  infOf p.data s.data

/-- Go `strings.ToLower` (character data). -/
def strToLowerData (s : String) : List Char :=
  s.data.map lowerChar

/-- Go `filepath.Base` restricted to the slash-separated paths the scanner
builds: the part after the last `/`. -/
def baseName (p : String) : String :=
  ⟨(p.data.reverse.takeWhile (fun c => decide (c ≠ '/'))).reverse⟩

/-- Go `filepath.Ext`: the suffix beginning at the final dot in the final
slash-separated element, empty when that element has no dot. -/
def extOf (p : String) : String :=
  let lastRev := p.data.reverse.takeWhile (fun c => decide (c ≠ '/'))
  let beforeDot := lastRev.takeWhile (fun c => decide (c ≠ '.'))
  if beforeDot.length < lastRev.length then ⟨'.' :: beforeDot.reverse⟩
  else ""

/-! ### db.UpsertRomFile -/

/-- `UpsertRomFile` (part_002/part_003 lines 104-114): INSERT with
`ON CONFLICT(path) DO UPDATE` replacing filename, size, the three hashes and
platform; the game link column is not in the update list, and a fresh row
starts with a NULL game link. -/
def upsertRomFile (c : Catalog) (path filename : String) (size : Int)
    (crc32 md5 sha1 platform : String) : Catalog :=
  if c.rom_files.any (fun r => decide (r.path = path)) then
    { c with rom_files := c.rom_files.map (fun r =>
        if r.path = path then
          { r with filename := filename, size := size, hash_crc32 := crc32,
                   hash_md5 := md5, hash_sha1 := sha1, platform := platform }
        else r) }
  else
    { c with
      rom_files := c.rom_files ++
        [{ id := c.next_rom_id, path := path, filename := filename, size := size,
           hash_crc32 := crc32, hash_md5 := md5, hash_sha1 := sha1,
           platform := platform, game_id := none }],
      next_rom_id := c.next_rom_id + 1 }

/-! ### db.MatchROMs (hash-based match, part_002 lines 371-439) -/

/-- Which of the three hash columns a lookup consults. -/
inductive HashField where
  | sha1
  | md5
  | crc32
deriving DecidableEq

/-- Projection of the chosen hash column out of a rom-file row. -/
def romHash : HashField → RomFile → String
  | .sha1, r => r.hash_sha1
  | .md5, r => r.hash_md5
  | .crc32, r => r.hash_crc32

/-- Hash-field selection of `MatchROMs`: first non-empty in the order
SHA1, MD5, CRC32; `none` when all three are empty (the record is skipped). -/
def chooseHash (dr : DATRom) : Option (HashField × String) :=
  if dr.sha1 ≠ "" then some (.sha1, dr.sha1)
  else if dr.md5 ≠ "" then some (.md5, dr.md5)
  else if dr.crc32 ≠ "" then some (.crc32, dr.crc32)
  else none

/-- The `SELECT id, game_id FROM rom_files WHERE hash_x = ?` snapshot taken
by `MatchROMs` before it processes the matches of one checksum record. -/
def hashMatches (dr : DATRom) (roms : List RomFile) : List (Nat × Option Nat) :=
  match chooseHash dr with
  | none => []
  | some (hf, hv) =>
      (roms.filter (fun r => decide (romHash hf r = hv))).map (fun r => (r.id, r.game_id))

/-- `UPDATE games SET title_en = ? WHERE id = ? AND (title_en IS NULL OR
title_en = '')`. -/
def setTitleIfEmpty (title : String) (gid : Nat) (games : List Game) : List Game :=
  games.map (fun g =>
    if g.id = gid ∧ (g.title_en = none ∨ g.title_en = some "") then
      { g with title_en := some title }
    else g)

/-- `SELECT id FROM games WHERE title_en = ? AND platform = ?` (first row). -/
def findGame (games : List Game) (title platform : String) : Option Game :=
  games.find? (fun g => decide (g.title_en = some title ∧ g.platform = platform))

/-- Fresh `games` row from `INSERT INTO games (title_en, platform)`. -/
def newGame (id : Nat) (title platform : String) : Game :=
  { id := id, title_en := some title, title_ja := none, description_ja := none,
    platform := platform, developer := none, publisher := none,
    release_date := none, genre := none, players := none, rating := none }

/-- `UPDATE rom_files SET game_id = ? WHERE id = ?`. -/
def linkRom (gid rid : Nat) (roms : List RomFile) : List RomFile :=
  roms.map (fun r => if r.id = rid then { r with game_id := some gid } else r)

/-- Processing of one snapshotted hash match inside `MatchROMs`: an already
linked rom updates its game's empty English title; an unlinked rom is linked
to the game found or created by (title, platform). -/
def matchRomStep (dr : DATRom) (c : Catalog) (pr : Nat × Option Nat) : Catalog :=
  match pr.2 with
  | some gid => { c with games := setTitleIfEmpty dr.gameTitle gid c.games }
  | none =>
    match findGame c.games dr.gameTitle dr.platform with
    | some g => { c with rom_files := linkRom g.id pr.1 c.rom_files }
    | none =>
      { c with
        games := c.games ++ [newGame c.next_game_id dr.gameTitle dr.platform],
        next_game_id := c.next_game_id + 1,
        rom_files := linkRom c.next_game_id pr.1 c.rom_files }

/-- One iteration of the `MatchROMs` outer loop: snapshot the hash matches,
then process each; the returned count is one per matched rom file. -/
def matchROMsOne (c : Catalog) (dr : DATRom) : Catalog × Nat :=
  let ms := hashMatches dr c.rom_files
  (ms.foldl (matchRomStep dr) c, ms.length)

/-- `MatchROMs` (part_002 lines 371-439): the whole hash-based match batch. -/
def matchROMs (c : Catalog) (drs : List DATRom) : Catalog × Nat :=
  drs.foldl (fun acc dr =>
    let r := matchROMsOne acc.1 dr
    (r.1, acc.2 + r.2)) (c, 0)

/-! ### db.MatchByGameList (part_003 lines 502-559) -/

/-- `COALESCE(NULLIF(?, ''), col)`: the incoming value when it is non-empty,
otherwise the stored one. -/
def coalesceNullif (new : String) (old : Option String) : Option String :=
  if new = "" then old else some new

/-- SQLite `LIKE` matching with explicit fuel (structural recursion, so the
kernel can evaluate it): `%` matches any sequence of characters, `_` matches
exactly one character, and every other pattern character matches
case-insensitively for ASCII (SQLite's default `LIKE` behaviour, and the
only collation relevant to the byte strings the scanner stores).  Every
recursive call strictly decreases `pattern.length + s.length`, so fuel
`pattern.length + s.length` always suffices and the `0` equation for a
non-empty pattern is unreachable. -/
def likeFuel : Nat → List Char → List Char → Bool
  | _, [], s => s.isEmpty
  | 0, _ :: _, _ => false
  | fuel + 1, pc :: ps, [] =>
    if pc = '%' then likeFuel fuel ps [] else false
  | fuel + 1, pc :: ps, ch :: t =>
    if pc = '%' then
      likeFuel fuel ps (ch :: t) || likeFuel fuel (pc :: ps) t
    else
      (if pc = '_' then true else decide (lowerChar pc = lowerChar ch)) && likeFuel fuel ps t

/-- `s LIKE pattern` under SQLite's default semantics. -/
def likeChars (pattern s : List Char) : Bool :=
  likeFuel (pattern.length + s.length) pattern s

/-- The filename condition of the rom-file SELECT in `MatchByGameList`:
`filename = ? OR filename LIKE '%/' || ? OR filename LIKE ? || '/%'`, with
`=` under the default BINARY collation and `LIKE` under SQLite's default
wildcard and ASCII case-folding semantics. -/
def gamelistFilenameMatch (fname filename : String) : Bool :=
  decide (filename = fname) || likeChars ("%/" ++ fname).data filename.data ||
    likeChars (fname ++ "/%").data filename.data

/-- The three-literal-shape reading of the same condition (exact filename,
literal suffix `/F`, literal `F/` as a prefix), with no wildcard or
case-folding semantics; used to compare the spec's wording with the SQL. -/
def literalFilenameMatch (fname filename : String) : Bool :=
  decide (filename = fname) || sufOf ("/" ++ fname).data filename.data ||
    prefOf (fname ++ "/").data filename.data

/-- Fresh `games` row inserted by `MatchByGameList` for an unseen native
title: every descriptive column receives the entry's (possibly empty)
string, `title_en` stays NULL. -/
def newGameFromEntry (id : Nat) (e : GameListEntry) (platform : String) : Game :=
  { id := id, title_en := none, title_ja := some e.name,
    description_ja := some e.desc, platform := platform,
    developer := some e.developer, publisher := some e.publisher,
    release_date := some e.releaseDate, genre := some e.genre,
    players := some e.players, rating := some e.rating }

/-- The per-row effect of the metadata UPDATE of `MatchByGameList`
(part_003 lines 542-546): each descriptive column becomes
`COALESCE(NULLIF(incoming, ''), column)`. -/
def mergeRow (e : GameListEntry) (g : Game) : Game :=
  { g with
    description_ja := coalesceNullif e.desc g.description_ja,
    developer := coalesceNullif e.developer g.developer,
    publisher := coalesceNullif e.publisher g.publisher,
    release_date := coalesceNullif e.releaseDate g.release_date,
    genre := coalesceNullif e.genre g.genre,
    players := coalesceNullif e.players g.players,
    rating := coalesceNullif e.rating g.rating }

/-- The metadata UPDATE of `MatchByGameList` applied at the found game's id. -/
def mergeEntryMeta (e : GameListEntry) (gid : Nat) (games : List Game) : List Game :=
  games.map (fun g => if g.id = gid then mergeRow e g else g)

/-- One iteration of the `MatchByGameList` loop: collect rom ids matching
the entry's filename on the platform; when non-empty, find the game by
(native title, platform) and merge metadata, or insert a new one; then link
every collected rom id unconditionally.  Returns (state, created, matched). -/
def matchByGameListOne (c : Catalog) (platform : String) (e : GameListEntry) :
    Catalog × Nat × Nat :=
  let romIDs := ((c.rom_files.filter (fun r =>
    decide (r.platform = platform) && gamelistFilenameMatch e.filename r.filename)).map
      (fun r => r.id))
  if romIDs = [] then (c, 0, 0)
  else
    match c.games.find? (fun g => decide (g.title_ja = some e.name ∧ g.platform = platform)) with
    | some g =>
      let c2 : Catalog := { c with games := mergeEntryMeta e g.id c.games }
      ({ c2 with rom_files := romIDs.foldl (fun rs rid => linkRom g.id rid rs) c2.rom_files },
        0, romIDs.length)
    | none =>
      let gid := c.next_game_id
      let c2 : Catalog := { c with
        games := c.games ++ [newGameFromEntry gid e platform],
        next_game_id := gid + 1 }
      ({ c2 with rom_files := romIDs.foldl (fun rs rid => linkRom gid rid rs) c2.rom_files },
        1, romIDs.length)

/-- `MatchByGameList` (part_003 lines 502-559). -/
def matchByGameList (c : Catalog) (entries : List GameListEntry) (platform : String) :
    Catalog × Nat × Nat :=
  entries.foldl (fun acc e =>
    let r := matchByGameListOne acc.1 platform e
    (r.1, acc.2.1 + r.2.1, acc.2.2 + r.2.2)) (c, 0, 0)

/-! ### db.UpdateGameMetadata (part_003 lines 781-794) -/

/-- `UpdateGameMetadata`: the secondary-enrichment UPDATE, one
`COALESCE(NULLIF(?, ''), column)` per descriptive column. -/
def updateGameMetadata (c : Catalog) (gid : Nat)
    (titleJA descJA developer publisher releaseDate genre players : String) : Catalog :=
  { c with games := c.games.map (fun g =>
      if g.id = gid then
        { g with
          title_ja := coalesceNullif titleJA g.title_ja,
          description_ja := coalesceNullif descJA g.description_ja,
          developer := coalesceNullif developer g.developer,
          publisher := coalesceNullif publisher g.publisher,
          release_date := coalesceNullif releaseDate g.release_date,
          genre := coalesceNullif genre g.genre,
          players := coalesceNullif players g.players }
      else g) }

/-! ### scanner.scanZipContents (scanner.go lines 187-231) -/

/-- `platformExtensions` (scanner.go lines 53-76). -/
def platformExtensions : List (String × List String) :=
  [("FC", [".nes"]), ("SFC", [".sfc", ".smc"]), ("GB", [".gb"]), ("GBC", [".gbc"]),
   ("GBA", [".gba"]), ("MD", [".md", ".bin", ".gen"]),
   ("PS1", [".bin", ".cue", ".img", ".iso"]), ("N64", [".n64", ".z64", ".v64"]),
   ("NDS", [".nds"]), ("PCE", [".pce"]), ("MSX", [".rom"]), ("GG", [".gg"]),
   ("SMS", [".sms"]), ("WS", [".ws"]), ("WSC", [".wsc"]), ("NGP", [".ngp"]),
   ("PCFX", [".iso", ".bin", ".cue"]), ("NEOGEO", [".zip"]),
   ("PICO8", [".p8", ".png"]), ("PS2", [".iso", ".bin", ".cue"]),
   ("SS", [".iso", ".bin", ".cue"]), ("ARCADE", [".zip"])]

/-- `isValidExtension`: allow-list check, fail-open for an unlisted platform. -/
def isValidExtension (platform ext : String) : Bool :=
  match platformExtensions.find? (fun kv => decide (kv.1 = platform)) with
  | none => true
  | some kv => kv.2.any (fun e => decide (ext = e))

/-- Lowercased `filepath.Ext` of a zip entry name, as the scanner computes it. -/
def lowerExt (name : String) : String :=
  ⟨strToLowerData (extOf name)⟩

/-- `scanZipContents`: walk the container entries, skip directories and
entries with a disallowed extension, and upsert every remaining entry with
the container's path as the row key and
`<container-basename>/<entry-name>` as the display filename.  The Bool is
the `found` flag (at least one qualifying entry). -/
def scanZipContents (zipPath platform : String) (entries : List ZipEntry)
    (c : Catalog) : Catalog × Bool :=
  entries.foldl (fun (acc : Catalog × Bool) f =>
    if f.isDir then acc
    else if !(isValidExtension platform (lowerExt f.name)) then acc
    else
      (upsertRomFile acc.1 zipPath (baseName zipPath ++ "/" ++ f.name) f.size
        f.crc32 f.md5 f.sha1 platform, true)) (c, false)

/-! ### dat.detectPlatformFromHeader (part_005 lines 174-215) -/

/-- The `patterns` map literal of `detectPlatformFromHeader`. -/
def datPatterns : List (String × String) :=
  [("nintendo entertainment system", "FC"), ("famicom", "FC"),
   ("super nintendo", "SFC"), ("super famicom", "SFC"),
   ("game boy advance", "GBA"), ("game boy color", "GBC"), ("game boy", "GB"),
   ("mega drive", "MD"), ("genesis", "MD"), ("playstation", "PS1"),
   ("nintendo 64", "N64"), ("nintendo ds", "NDS"), ("pc engine", "PCE"),
   ("turbografx", "PCE"), ("game gear", "GG"), ("master system", "SMS"),
   ("wonderswan color", "WSC"), ("wonderswan", "WS"), ("neo geo pocket", "NGP")]

/-- Lookup in the `patterns` map. -/
def lookupPat (p : String) : String :=
  match datPatterns.find? (fun kv => decide (kv.1 = p)) with
  | some kv => kv.2
  | none => ""

/-- The explicit `order` slice: longer / more specific patterns first. -/
def datOrder : List String :=
  ["game boy advance", "game boy color", "game boy",
   "wonderswan color", "wonderswan",
   "super nintendo", "super famicom",
   "nintendo entertainment system", "famicom",
   "mega drive", "genesis",
   "nintendo 64", "nintendo ds",
   "pc engine", "turbografx",
   "game gear", "master system",
   "neo geo pocket", "playstation"]

/-- The ordered scan of `detectPlatformFromHeader`: first pattern contained
in the lowered header wins. -/
def firstMatch (lower : List Char) : List String → String
  | [] => ""
  | p :: rest => if infOf p.data lower then lookupPat p else firstMatch lower rest

/-- `detectPlatformFromHeader` (part_005 lines 174-215). -/
def detectPlatformFromHeader (name : String) : String :=
  firstMatch (strToLowerData name) datOrder

/-! ### String lemmas -/

theorem prefOf_iff (p s : List Char) : prefOf p s = true ↔ ∃ t, s = p ++ t := by
  induction p generalizing s with
  | nil => simp [prefOf]
  | cons a as ih =>
    cases s with
    | nil => simp [prefOf]
    | cons b bs =>
      simp only [prefOf, Bool.and_eq_true, decide_eq_true_eq, ih, List.cons_append]
      constructor
      · rintro ⟨rfl, t, rfl⟩
        exact ⟨t, rfl⟩
      · rintro ⟨t, ht⟩
        injection ht with h1 h2
        subst h1
        exact ⟨rfl, t, h2⟩

theorem sufOf_iff (p s : List Char) : sufOf p s = true ↔ ∃ t, s = t ++ p := by
  unfold sufOf
  rw [prefOf_iff]
  constructor
  · rintro ⟨t, ht⟩
    refine ⟨t.reverse, ?_⟩
    have h2 := congrArg List.reverse ht
    simpa using h2
  · rintro ⟨t, rfl⟩
    exact ⟨t.reverse, by simp⟩

theorem infOf_iff (p s : List Char) : infOf p s = true ↔ ∃ u v, s = u ++ p ++ v := by
  induction s with
  | nil =>
    simp only [infOf, List.isEmpty_iff]
    constructor
    · rintro rfl
      exact ⟨[], [], rfl⟩
    · rintro ⟨u, v, h⟩
      have h2 := List.append_eq_nil.mp h.symm
      exact (List.append_eq_nil.mp h2.1).2
  | cons c t ih =>
    simp only [infOf, Bool.or_eq_true, prefOf_iff, ih]
    constructor
    · rintro (⟨w, hw⟩ | ⟨u, v, rfl⟩)
      · exact ⟨[], w, by simpa using hw⟩
      · exact ⟨c :: u, v, by simp⟩
    · rintro ⟨u, v, huv⟩
      cases u with
      | nil => exact Or.inl ⟨v, by simpa using huv⟩
      | cons x xs =>
        right
        simp only [List.cons_append, List.append_assoc] at huv
        injection huv with h1 h2
        subst h1
        exact ⟨xs, v, by simpa [List.append_assoc] using h2⟩

theorem infOf_map (f : Char → Char) {p s : List Char} (h : infOf p s = true) :
    infOf (p.map f) (s.map f) = true := by
  rw [infOf_iff] at h ⊢
  obtain ⟨u, v, rfl⟩ := h
  exact ⟨u.map f, v.map f, by simp⟩

theorem infOf_trans {p q s : List Char} (h1 : infOf p q = true) (h2 : infOf q s = true) :
    infOf p s = true := by
  rw [infOf_iff] at h1 h2 ⊢
  obtain ⟨u, v, rfl⟩ := h1
  obtain ⟨u2, v2, rfl⟩ := h2
  exact ⟨u2 ++ u, v ++ v2, by simp⟩

/-! ### Upsert lemmas and C9 -/

/-- Abbreviation for the field replacement an upsert performs on a row. -/
def replaceFields (fn : String) (sz : Int) (a b d pf : String) (r : RomFile) : RomFile :=
  { r with filename := fn, size := sz, hash_crc32 := a,
           hash_md5 := b, hash_sha1 := d, platform := pf }

theorem upsertRomFile_eq (c : Catalog) (path fn : String) (sz : Int) (a b d pf : String) :
    upsertRomFile c path fn sz a b d pf =
      if (c.rom_files.any fun r => decide (r.path = path)) = true then
        { c with rom_files := c.rom_files.map (fun r =>
            if r.path = path then replaceFields fn sz a b d pf r else r) }
      else
        { c with
          rom_files := c.rom_files ++
            [{ id := c.next_rom_id, path := path, filename := fn, size := sz,
               hash_crc32 := a, hash_md5 := b, hash_sha1 := d,
               platform := pf, game_id := none }],
          next_rom_id := c.next_rom_id + 1 } := by
  simp only [upsertRomFile, replaceFields]

/-- C9: re-scanning a file with an unchanged identity key is idempotent and
frame-preserving: upserting the same row twice equals upserting it once; an
upsert never changes any existing row's game link; and when the identity key
is already present, the upsert replaces filename, size, the three hashes and
the platform in place without creating a second row. -/
theorem upsert_rescan_idempotent_frame (c : Catalog) (path fn : String) (sz : Int)
    (a b d pf : String) :
    upsertRomFile (upsertRomFile c path fn sz a b d pf) path fn sz a b d pf
        = upsertRomFile c path fn sz a b d pf
    ∧ (∀ i (h : i < c.rom_files.length),
        ∃ h2 : i < (upsertRomFile c path fn sz a b d pf).rom_files.length,
          ((upsertRomFile c path fn sz a b d pf).rom_files.get ⟨i, h2⟩).game_id
            = (c.rom_files.get ⟨i, h⟩).game_id)
    ∧ (∀ i (h : i < c.rom_files.length), (c.rom_files.get ⟨i, h⟩).path = path →
        (upsertRomFile c path fn sz a b d pf).rom_files.length = c.rom_files.length
        ∧ ∃ h2 : i < (upsertRomFile c path fn sz a b d pf).rom_files.length,
            (upsertRomFile c path fn sz a b d pf).rom_files.get ⟨i, h2⟩
              = replaceFields fn sz a b d pf (c.rom_files.get ⟨i, h⟩)) := by
  set f : RomFile → RomFile :=
    fun r => if r.path = path then replaceFields fn sz a b d pf r else r with hf
  have hfpath : ∀ r, (f r).path = r.path := by
    intro r; by_cases hr : r.path = path <;> simp [hf, hr, replaceFields]
  have hfgid : ∀ r, (f r).game_id = r.game_id := by
    intro r; by_cases hr : r.path = path <;> simp [hf, hr, replaceFields]
  have hff : ∀ r, f (f r) = f r := by
    intro r; by_cases hr : r.path = path <;>
      simp [hf, hr, replaceFields, hfpath]
  by_cases hany : (c.rom_files.any fun r => decide (r.path = path)) = true
  · have hmapany : ((c.rom_files.map f).any fun r => decide (r.path = path)) = true := by
      rw [List.any_map]
      simpa [Function.comp, hfpath] using hany
    refine ⟨?_, ?_, ?_⟩
    · rw [upsertRomFile_eq c, if_pos hany, upsertRomFile_eq, if_pos hmapany]
      simp only [List.map_map]
      congr 1
      apply List.map_congr_left
      intro r _
      exact hff r
    · intro i h
      rw [upsertRomFile_eq c, if_pos hany]
      refine ⟨by simpa using h, ?_⟩
      have := hfgid (c.rom_files.get ⟨i, h⟩)
      simpa [List.getElem_map, hf] using this
    · intro i h hp
      rw [upsertRomFile_eq c, if_pos hany]
      simp only [List.get_eq_getElem] at hp
      constructor
      · simp
      · refine ⟨by simpa using h, ?_⟩
        simp [List.getElem_map, hp]
  · have hnone : ∀ r ∈ c.rom_files, r.path ≠ path := by
      intro r hr hp
      apply hany
      rw [List.any_eq_true]
      exact ⟨r, hr, by simp [hp]⟩
    have hmapid : List.map f c.rom_files = c.rom_files := by
      have h1 : ∀ r ∈ c.rom_files, f r = r := fun r hr => by simp [hf, hnone r hr]
      calc List.map f c.rom_files = List.map id c.rom_files := List.map_congr_left h1
        _ = c.rom_files := List.map_id _
    refine ⟨?_, ?_, ?_⟩
    · have hany2 : (((c.rom_files ++
          [({ id := c.next_rom_id, path := path, filename := fn, size := sz,
              hash_crc32 := a, hash_md5 := b, hash_sha1 := d,
              platform := pf, game_id := none } : RomFile)]).any
            fun r => decide (r.path = path)) = true) := by
        simp
      rw [upsertRomFile_eq c, if_neg hany, upsertRomFile_eq, if_pos hany2]
      congr 1
      rw [List.map_append, hmapid]
      congr 1
      simp [hf, replaceFields]
    · intro i h
      rw [upsertRomFile_eq c, if_neg hany]
      refine ⟨by simp; omega, ?_⟩
      simp [List.getElem_append_left h]
    · intro i h hp
      exact absurd hp (hnone _ (List.get_mem _ _ _))


/-! ### MatchROMs lemmas -/

/-- Rom-file rows have pairwise distinct surrogate keys (the PRIMARY KEY
invariant of the `rom_files` table). -/
def RomIdsNodup (c : Catalog) : Prop :=
  (c.rom_files.map (fun r => r.id)).Nodup

/-- Game rows have pairwise distinct surrogate keys. -/
def GameIdsNodup (c : Catalog) : Prop :=
  (c.games.map (fun g => g.id)).Nodup

theorem matchRomStep_roms_length (dr : DATRom) (c : Catalog) (pr : Nat × Option Nat) :
    (matchRomStep dr c pr).rom_files.length = c.rom_files.length := by
  unfold matchRomStep
  rcases pr with ⟨rid, go⟩
  cases go with
  | some gid => simp
  | none =>
    cases hfind : findGame c.games dr.gameTitle dr.platform <;> simp [linkRom]

theorem matchRomStep_games_le (dr : DATRom) (c : Catalog) (pr : Nat × Option Nat) :
    c.games.length ≤ (matchRomStep dr c pr).games.length := by
  unfold matchRomStep
  rcases pr with ⟨rid, go⟩
  cases go with
  | some gid => simp [setTitleIfEmpty]
  | none =>
    cases hfind : findGame c.games dr.gameTitle dr.platform <;> simp

theorem foldl_step_roms_length (dr : DATRom) (ms : List (Nat × Option Nat)) (c : Catalog) :
    (ms.foldl (matchRomStep dr) c).rom_files.length = c.rom_files.length := by
  induction ms generalizing c with
  | nil => rfl
  | cons pr ms ih =>
    rw [List.foldl_cons, ih, matchRomStep_roms_length]

theorem foldl_step_games_le (dr : DATRom) (ms : List (Nat × Option Nat)) (c : Catalog) :
    c.games.length ≤ (ms.foldl (matchRomStep dr) c).games.length := by
  induction ms generalizing c with
  | nil => exact Nat.le_refl _
  | cons pr ms ih =>
    exact Nat.le_trans (matchRomStep_games_le dr c pr) (ih _)

theorem matchRomStep_rom_getElem (dr : DATRom) (c : Catalog) (pr : Nat × Option Nat)
    (i : Nat) (r : RomFile) (hr : c.rom_files[i]? = some r) :
    (pr.2 = none ∧ r.id = pr.1
      ∧ ∃ gid, (matchRomStep dr c pr).rom_files[i]? = some { r with game_id := some gid })
    ∨ (¬(pr.2 = none ∧ r.id = pr.1)
      ∧ (matchRomStep dr c pr).rom_files[i]? = some r) := by
  rcases pr with ⟨rid, go⟩
  cases go with
  | some gid =>
    right
    refine ⟨by simp, ?_⟩
    simp only [matchRomStep]
    exact hr
  | none =>
    by_cases hid : r.id = rid
    · left
      refine ⟨rfl, hid, ?_⟩
      unfold matchRomStep
      cases hfind : findGame c.games dr.gameTitle dr.platform with
      | some g =>
        refine ⟨g.id, ?_⟩
        simp [linkRom, List.getElem?_map, hr, hid]
      | none =>
        refine ⟨c.next_game_id, ?_⟩
        simp [linkRom, List.getElem?_map, hr, hid]
    · right
      refine ⟨by simp [hid], ?_⟩
      unfold matchRomStep
      cases hfind : findGame c.games dr.gameTitle dr.platform with
      | some g => simp [linkRom, List.getElem?_map, hr, hid]
      | none => simp [linkRom, List.getElem?_map, hr, hid]

theorem foldl_rom_shape (dr : DATRom) (ms : List (Nat × Option Nat)) (c : Catalog)
    (i : Nat) (r : RomFile) (hr : c.rom_files[i]? = some r) :
    (ms.foldl (matchRomStep dr) c).rom_files[i]? = some r
    ∨ ∃ gid, (ms.foldl (matchRomStep dr) c).rom_files[i]? = some { r with game_id := some gid } := by
  induction ms generalizing c r with
  | nil => exact Or.inl hr
  | cons pr ms ih =>
    rw [List.foldl_cons]
    rcases matchRomStep_rom_getElem dr c pr i r hr with ⟨_, _, gid, hstep⟩ | ⟨_, hstep⟩
    · rcases ih _ _ hstep with h1 | ⟨gid2, h2⟩
      · exact Or.inr ⟨gid, h1⟩
      · exact Or.inr ⟨gid2, by simpa using h2⟩
    · exact ih _ _ hstep

theorem foldl_rom_unchanged (dr : DATRom) (ms : List (Nat × Option Nat)) (c : Catalog)
    (i : Nat) (r : RomFile) (hr : c.rom_files[i]? = some r)
    (hno : ∀ pr ∈ ms, pr.2 = none → pr.1 ≠ r.id) :
    (ms.foldl (matchRomStep dr) c).rom_files[i]? = some r := by
  induction ms generalizing c with
  | nil => exact hr
  | cons pr ms ih =>
    rw [List.foldl_cons]
    rcases matchRomStep_rom_getElem dr c pr i r hr with ⟨hn, hid, _, _⟩ | ⟨_, hstep⟩
    · exact absurd hid.symm (hno pr (List.mem_cons_self _ _) hn)
    · exact ih _ hstep (fun q hq => hno q (List.mem_cons_of_mem _ hq))

/-- A game row carrying the given English title under the given id. -/
def TitledGame (t : String) (games : List Game) (gid : Nat) : Prop :=
  ∃ g ∈ games, g.id = gid ∧ g.title_en = some t

theorem matchRomStep_titled (dr : DATRom) (c : Catalog) (pr : Nat × Option Nat)
    {gid : Nat} (h : TitledGame dr.gameTitle c.games gid) :
    TitledGame dr.gameTitle (matchRomStep dr c pr).games gid := by
  obtain ⟨g, hg, hid, hti⟩ := h
  rcases pr with ⟨rid, go⟩
  cases go with
  | some gid2 =>
    refine ⟨if g.id = gid2 ∧ (g.title_en = none ∨ g.title_en = some "") then
      { g with title_en := some dr.gameTitle } else g, ?_, ?_, ?_⟩
    · simp only [matchRomStep, setTitleIfEmpty]
      exact List.mem_map_of_mem _ hg
    · split <;> simp [hid]
    · split <;> simp [hti]
  | none =>
    unfold matchRomStep
    cases hfind : findGame c.games dr.gameTitle dr.platform with
    | some g2 => exact ⟨g, hg, hid, hti⟩
    | none => exact ⟨g, List.mem_append_left _ hg, hid, hti⟩

theorem foldl_titled (dr : DATRom) (ms : List (Nat × Option Nat)) (c : Catalog)
    {gid : Nat} (h : TitledGame dr.gameTitle c.games gid) :
    TitledGame dr.gameTitle (ms.foldl (matchRomStep dr) c).games gid := by
  induction ms generalizing c with
  | nil => exact h
  | cons pr ms ih =>
    exact ih _ (matchRomStep_titled dr c pr h)

theorem matchRomStep_links (dr : DATRom) (c : Catalog) (rid : Nat)
    (i : Nat) (r : RomFile) (hr : c.rom_files[i]? = some r) (hid : r.id = rid) :
    ∃ gid, (matchRomStep dr c (rid, none)).rom_files[i]? = some { r with game_id := some gid }
      ∧ TitledGame dr.gameTitle (matchRomStep dr c (rid, none)).games gid := by
  unfold matchRomStep
  cases hfind : findGame c.games dr.gameTitle dr.platform with
  | some g =>
    refine ⟨g.id, ?_, ?_⟩
    · simp [linkRom, List.getElem?_map, hr, hid]
    · rw [findGame] at hfind
      have hmem := List.mem_of_find?_eq_some hfind
      have hprop := List.find?_some hfind
      simp only [decide_eq_true_eq] at hprop
      exact ⟨g, hmem, rfl, hprop.1⟩
  | none =>
    refine ⟨c.next_game_id, ?_, ?_⟩
    · simp [linkRom, List.getElem?_map, hr, hid]
    · exact ⟨newGame c.next_game_id dr.gameTitle dr.platform,
        List.mem_append_right _ (List.mem_singleton_self _), rfl, rfl⟩

theorem hashMatches_fst_nodup (dr : DATRom) (c : Catalog) (h : RomIdsNodup c) :
    ((hashMatches dr c.rom_files).map Prod.fst).Nodup := by
  unfold hashMatches
  cases chooseHash dr with
  | none => simp
  | some pr =>
    rcases pr with ⟨hf, hv⟩
    simp only [List.map_map]
    have heq : (Prod.fst ∘ fun (r : RomFile) => (r.id, r.game_id)) = fun r => r.id := rfl
    rw [heq]
    exact ((List.filter_sublist _).map _).nodup h

theorem hashMatches_mem (dr : DATRom) (roms : List RomFile) (hf : HashField) (hv : String)
    (hch : chooseHash dr = some (hf, hv)) (r : RomFile) (hr : r ∈ roms)
    (hh : romHash hf r = hv) : (r.id, r.game_id) ∈ hashMatches dr roms := by
  unfold hashMatches
  rw [hch]
  exact List.mem_map_of_mem _ (List.mem_filter.mpr ⟨hr, by simp [hh]⟩)

theorem hashMatches_src (dr : DATRom) (roms : List RomFile) (pr : Nat × Option Nat)
    (hpr : pr ∈ hashMatches dr roms) :
    ∃ r ∈ roms, pr = (r.id, r.game_id)
      ∧ ∃ hf hv, chooseHash dr = some (hf, hv) ∧ romHash hf r = hv := by
  unfold hashMatches at hpr
  cases hch : chooseHash dr with
  | none => rw [hch] at hpr; simp at hpr
  | some q =>
    rcases q with ⟨hf, hv⟩
    rw [hch] at hpr
    obtain ⟨r, hrf, rfl⟩ := List.mem_map.mp hpr
    obtain ⟨hrm, hcond⟩ := List.mem_filter.mp hrf
    exact ⟨r, hrm, rfl, hf, hv, rfl, by simpa using hcond⟩

theorem matchROMsOne_fst (c : Catalog) (dr : DATRom) :
    (matchROMsOne c dr).1 = (hashMatches dr c.rom_files).foldl (matchRomStep dr) c := rfl

theorem matchROMs_fold_fst_congr (drs : List DATRom) (p q : Catalog × Nat) (hpq : p.1 = q.1) :
    ((drs.foldl (fun acc dr =>
        let r := matchROMsOne acc.1 dr
        (r.1, acc.2 + r.2)) p).1)
      = ((drs.foldl (fun acc dr =>
          let r := matchROMsOne acc.1 dr
          (r.1, acc.2 + r.2)) q).1) := by
  induction drs generalizing p q with
  | nil => exact hpq
  | cons dr drs ih =>
    rw [List.foldl_cons, List.foldl_cons]
    exact ih _ _ (by simp [hpq])

theorem matchROMs_cons_fst (c : Catalog) (dr : DATRom) (drs : List DATRom) :
    (matchROMs c (dr :: drs)).1 = (matchROMs (matchROMsOne c dr).1 drs).1 := by
  unfold matchROMs
  rw [List.foldl_cons]
  exact matchROMs_fold_fst_congr drs _ _ rfl

theorem nodup_middle_not_mem {α : Type} {l1 l2 : List α} {a : α}
    (h : (l1 ++ a :: l2).Nodup) : a ∉ l1 ∧ a ∉ l2 := by
  rw [List.nodup_middle] at h
  rcases List.nodup_cons.mp h with ⟨hm, _⟩
  simp only [List.mem_append] at hm
  exact ⟨fun h1 => hm (Or.inl h1), fun h2 => hm (Or.inr h2)⟩

theorem matchROMsOne_roms_length (c : Catalog) (dr : DATRom) :
    (matchROMsOne c dr).1.rom_files.length = c.rom_files.length := by
  rw [matchROMsOne_fst]
  exact foldl_step_roms_length dr _ c

theorem matchROMsOne_games_le (c : Catalog) (dr : DATRom) :
    c.games.length ≤ (matchROMsOne c dr).1.games.length := by
  rw [matchROMsOne_fst]
  exact foldl_step_games_le dr _ c

theorem matchROMsOne_rom_shape (c : Catalog) (dr : DATRom) (i : Nat) (r : RomFile)
    (hr : c.rom_files[i]? = some r) :
    (matchROMsOne c dr).1.rom_files[i]? = some r
    ∨ ∃ gid, (matchROMsOne c dr).1.rom_files[i]? = some { r with game_id := some gid } := by
  rw [matchROMsOne_fst]
  exact foldl_rom_shape dr _ c i r hr

theorem matchROMsOne_ids (c : Catalog) (dr : DATRom) :
    (matchROMsOne c dr).1.rom_files.map (fun r => r.id)
      = c.rom_files.map (fun r => r.id) := by
  apply List.ext_getElem?
  intro i
  rw [List.getElem?_map, List.getElem?_map]
  cases hr : c.rom_files[i]? with
  | none =>
    have hlen : c.rom_files.length ≤ i := by
      by_contra hlt
      push_neg at hlt
      rw [List.getElem?_eq_getElem hlt] at hr
      exact Option.noConfusion hr
    have : (matchROMsOne c dr).1.rom_files[i]? = none := by
      rw [List.getElem?_eq_none_iff]
      rw [matchROMsOne_roms_length]
      exact hlen
    rw [this]
  | some r =>
    rcases matchROMsOne_rom_shape c dr i r hr with h1 | ⟨gid, h1⟩
    · rw [h1]
    · rw [h1]
      rfl

theorem matchROMsOne_nodup (c : Catalog) (dr : DATRom) (h : RomIdsNodup c) :
    RomIdsNodup (matchROMsOne c dr).1 := by
  unfold RomIdsNodup
  rw [matchROMsOne_ids]
  exact h

theorem matchROMsOne_link_preserved (c : Catalog) (dr : DATRom) (hnd : RomIdsNodup c)
    (i : Nat) (r : RomFile) (hr : c.rom_files[i]? = some r) {gid : Nat}
    (hg : r.game_id = some gid) :
    (matchROMsOne c dr).1.rom_files[i]? = some r := by
  rw [matchROMsOne_fst]
  apply foldl_rom_unchanged dr _ c i r hr
  intro pr hpr hn2 hfst
  obtain ⟨r2, hr2m, hpr2, _⟩ := hashMatches_src dr c.rom_files pr hpr
  have hid2 : r2.id = r.id := by rw [hpr2] at hfst; exact hfst
  have hrm : r ∈ c.rom_files := List.getElem?_mem hr
  have hr2r : r2 = r := List.inj_on_of_nodup_map hnd hr2m hrm hid2
  rw [hpr2, hr2r] at hn2
  simp only at hn2
  rw [hg] at hn2
  exact Option.noConfusion hn2

theorem matchROMsOne_links_unlinked (c : Catalog) (dr : DATRom) (hnd : RomIdsNodup c)
    (i : Nat) (r : RomFile) (hr : c.rom_files[i]? = some r)
    (hnone : r.game_id = none) (hf : HashField) (hv : String)
    (hch : chooseHash dr = some (hf, hv)) (hh : romHash hf r = hv) :
    ∃ gid, (matchROMsOne c dr).1.rom_files[i]? = some { r with game_id := some gid }
      ∧ TitledGame dr.gameTitle (matchROMsOne c dr).1.games gid := by
  rw [matchROMsOne_fst]
  have hrm : r ∈ c.rom_files := List.getElem?_mem hr
  have hpmem : (r.id, r.game_id) ∈ hashMatches dr c.rom_files :=
    hashMatches_mem dr c.rom_files hf hv hch r hrm hh
  rw [hnone] at hpmem
  obtain ⟨ms1, ms2, hsplit⟩ := List.mem_iff_append.mp hpmem
  have hndf := hashMatches_fst_nodup dr c hnd
  rw [hsplit, List.map_append, List.map_cons] at hndf
  obtain ⟨hnot1, hnot2⟩ := nodup_middle_not_mem hndf
  rw [hsplit, List.foldl_append, List.foldl_cons]
  have hc1 : ((ms1.foldl (matchRomStep dr) c).rom_files)[i]? = some r := by
    apply foldl_rom_unchanged dr ms1 c i r hr
    intro q hq _ hqfst
    have hm1 := List.mem_map_of_mem Prod.fst hq
    rw [hqfst] at hm1
    exact hnot1 hm1
  obtain ⟨gid, hstep, htitled⟩ :=
    matchRomStep_links dr (ms1.foldl (matchRomStep dr) c) r.id i r hc1 rfl
  refine ⟨gid, ?_, ?_⟩
  · apply foldl_rom_unchanged dr ms2 _ i _ hstep
    intro q hq _ hqfst
    have hq1 : q.1 = r.id := by simpa using hqfst
    have hm2 := List.mem_map_of_mem Prod.fst hq
    rw [hq1] at hm2
    exact hnot2 hm2
  · exact foldl_titled dr ms2 _ htitled

theorem matchRomStep_game_getElem (dr : DATRom) (c : Catalog) (pr : Nat × Option Nat)
    (j : Nat) (g : Game) (hg : c.games[j]? = some g) :
    (matchRomStep dr c pr).games[j]? = some g
    ∨ ((g.title_en = none ∨ g.title_en = some "")
       ∧ (matchRomStep dr c pr).games[j]? = some { g with title_en := some dr.gameTitle }
       ∧ pr.2 = some g.id) := by
  rcases pr with ⟨rid, go⟩
  cases go with
  | some gid =>
    simp only [matchRomStep, setTitleIfEmpty]
    by_cases hcond : g.id = gid ∧ (g.title_en = none ∨ g.title_en = some "")
    · right
      refine ⟨hcond.2, ?_, by rw [hcond.1]⟩
      rw [List.getElem?_map, hg]
      simp only [Option.map_some']
      rw [if_pos hcond]
    · left
      rw [List.getElem?_map, hg]
      simp only [Option.map_some']
      rw [if_neg hcond]
  | none =>
    left
    have hlt : j < c.games.length := by
      by_contra hge
      push_neg at hge
      rw [List.getElem?_eq_none_iff.mpr hge] at hg
      exact Option.noConfusion hg
    unfold matchRomStep
    cases hfind : findGame c.games dr.gameTitle dr.platform with
    | some g2 => exact hg
    | none =>
      show (c.games ++ [newGame c.next_game_id dr.gameTitle dr.platform])[j]? = some g
      rw [List.getElem?_append_left hlt]
      exact hg

theorem foldl_game_getElem (dr : DATRom) (ms : List (Nat × Option Nat)) (c : Catalog)
    (j : Nat) (g : Game) (hg : c.games[j]? = some g) :
    (ms.foldl (matchRomStep dr) c).games[j]? = some g
    ∨ ((g.title_en = none ∨ g.title_en = some "")
       ∧ (ms.foldl (matchRomStep dr) c).games[j]?
           = some { g with title_en := some dr.gameTitle }
       ∧ ∃ q ∈ ms, q.2 = some g.id) := by
  induction ms generalizing c g with
  | nil => exact Or.inl hg
  | cons pr ms ih =>
    rw [List.foldl_cons]
    rcases matchRomStep_game_getElem dr c pr j g hg with hstep | ⟨hempty, hstep, hpr⟩
    · rcases ih _ _ hstep with h1 | ⟨he, h1, q, hq, hqid⟩
      · exact Or.inl h1
      · exact Or.inr ⟨he, h1, q, List.mem_cons_of_mem _ hq, hqid⟩
    · rcases ih _ _ hstep with h1 | ⟨he, h1, q, hq, hqid⟩
      · exact Or.inr ⟨hempty, h1, pr, List.mem_cons_self _ _, hpr⟩
      · refine Or.inr ⟨hempty, ?_, pr, List.mem_cons_self _ _, hpr⟩
        exact h1


theorem mem_getElem?_of_mem {α : Type} {l : List α} {a : α} (h : a ∈ l) :
    ∃ i : Nat, l[i]? = some a := by
  obtain ⟨i, hi⟩ := List.get_of_mem h
  exact ⟨i, by rw [List.getElem?_eq_getElem i.isLt]; simp [← hi]⟩

theorem romHash_set_gid (hf : HashField) (r : RomFile) (x : Option Nat) :
    romHash hf { r with game_id := x } = romHash hf r := by
  cases hf <;> rfl

theorem foldl_rom_linked (dr : DATRom) (ms : List (Nat × Option Nat)) (c : Catalog)
    (i : Nat) (r : RomFile) (hr : c.rom_files[i]? = some r)
    (hmem : (r.id, (none : Option Nat)) ∈ ms) :
    ∃ gid, (ms.foldl (matchRomStep dr) c).rom_files[i]? = some { r with game_id := some gid } := by
  induction ms generalizing c with
  | nil => exact absurd hmem (List.not_mem_nil _)
  | cons pr ms ih =>
    rw [List.foldl_cons]
    rcases matchRomStep_rom_getElem dr c pr i r hr with ⟨_, _, gid, hstep⟩ | ⟨hnm, hstep⟩
    · rcases foldl_rom_shape dr ms _ i _ hstep with h1 | ⟨gid2, h1⟩
      · exact ⟨gid, h1⟩
      · exact ⟨gid2, by simpa using h1⟩
    · apply ih _ hstep
      rcases List.mem_cons.mp hmem with heq | hms
      · exact absurd ⟨by rw [← heq], by rw [← heq]⟩ hnm
      · exact hms

/-- The rom files matching one checksum record's chosen hash all carry a
game link. -/
def SatOne (dr : DATRom) (c : Catalog) : Prop :=
  ∀ r ∈ c.rom_files, ∀ hf hv, chooseHash dr = some (hf, hv) →
    romHash hf r = hv → r.game_id.isSome = true

/-- Every record of the batch is saturated. -/
def SaturatedFor (drs : List DATRom) (c : Catalog) : Prop :=
  ∀ dr ∈ drs, SatOne dr c

theorem matchROMsOne_satOne_self (c : Catalog) (dr : DATRom) :
    SatOne dr (matchROMsOne c dr).1 := by
  intro r2 hmem hf hv hch hh
  obtain ⟨i, hi⟩ := mem_getElem?_of_mem hmem
  have hlt2 : i < (matchROMsOne c dr).1.rom_files.length := by
    by_contra hge
    push_neg at hge
    rw [List.getElem?_eq_none_iff.mpr hge] at hi
    exact Option.noConfusion hi
  have hlen : i < c.rom_files.length := by
    rw [← matchROMsOne_roms_length c dr]
    exact hlt2
  obtain ⟨r, hr⟩ : ∃ r, c.rom_files[i]? = some r := by
    rw [List.getElem?_eq_getElem hlen]
    exact ⟨_, rfl⟩
  rcases matchROMsOne_rom_shape c dr i r hr with hsh | ⟨gid, hsh⟩
  · rw [hi] at hsh
    have hrr : r2 = r := Option.some.inj hsh
    subst hrr
    cases hgo : r2.game_id with
    | some gid => simp
    | none =>
      have hpmem : (r2.id, (none : Option Nat)) ∈ hashMatches dr c.rom_files := by
        have hmm := hashMatches_mem dr c.rom_files hf hv hch r2 (List.getElem?_mem hr) hh
        rw [hgo] at hmm
        exact hmm
      obtain ⟨gid, hlink⟩ := foldl_rom_linked dr _ c i r2 hr hpmem
      rw [← matchROMsOne_fst, hi] at hlink
      have heq1 : r2 = { r2 with game_id := some gid } := Option.some.inj hlink
      have heq2 : r2.game_id = some gid := congrArg RomFile.game_id heq1
      rw [hgo] at heq2
      exact Option.noConfusion heq2
  · rw [hi] at hsh
    have hrr : r2 = { r with game_id := some gid } := Option.some.inj hsh
    rw [hrr]
    simp

theorem matchROMsOne_satOne_preserved (c : Catalog) (dr dr2 : DATRom)
    (h : SatOne dr c) : SatOne dr (matchROMsOne c dr2).1 := by
  intro r2 hmem hf hv hch hh
  obtain ⟨i, hi⟩ := mem_getElem?_of_mem hmem
  have hlt2 : i < (matchROMsOne c dr2).1.rom_files.length := by
    by_contra hge
    push_neg at hge
    rw [List.getElem?_eq_none_iff.mpr hge] at hi
    exact Option.noConfusion hi
  have hlen : i < c.rom_files.length := by
    rw [← matchROMsOne_roms_length c dr2]
    exact hlt2
  obtain ⟨r, hr⟩ : ∃ r, c.rom_files[i]? = some r := by
    rw [List.getElem?_eq_getElem hlen]
    exact ⟨_, rfl⟩
  rcases matchROMsOne_rom_shape c dr2 i r hr with hsh | ⟨gid, hsh⟩
  · rw [hi] at hsh
    have hrr : r2 = r := Option.some.inj hsh
    subst hrr
    exact h r2 (List.getElem?_mem hr) hf hv hch hh
  · rw [hi] at hsh
    have hrr : r2 = { r with game_id := some gid } := Option.some.inj hsh
    rw [hrr]
    simp

theorem satOne_of_roms_eq {dr : DATRom} {c1 c2 : Catalog}
    (hroms : c2.rom_files = c1.rom_files) (h : SatOne dr c1) : SatOne dr c2 := by
  intro r hmem
  rw [hroms] at hmem
  exact h r hmem

theorem foldl_allsome (dr : DATRom) (ms : List (Nat × Option Nat)) (c : Catalog)
    (hall : ∀ pr ∈ ms, pr.2 ≠ none) :
    (ms.foldl (matchRomStep dr) c).rom_files = c.rom_files
    ∧ (ms.foldl (matchRomStep dr) c).games.length = c.games.length := by
  induction ms generalizing c with
  | nil => exact ⟨rfl, rfl⟩
  | cons pr ms ih =>
    rw [List.foldl_cons]
    have hstep : (matchRomStep dr c pr).rom_files = c.rom_files
        ∧ (matchRomStep dr c pr).games.length = c.games.length := by
      rcases pr with ⟨rid, go⟩
      cases go with
      | some gid => exact ⟨rfl, by simp [matchRomStep, setTitleIfEmpty]⟩
      | none => exact absurd rfl (hall (rid, none) (List.mem_cons_self _ _))
    obtain ⟨ih1, ih2⟩ := ih (matchRomStep dr c pr) (fun q hq => hall q (List.mem_cons_of_mem _ hq))
    exact ⟨by rw [ih1, hstep.1], by rw [ih2, hstep.2]⟩

theorem matchROMsOne_satrun (c : Catalog) (dr : DATRom) (h : SatOne dr c) :
    (matchROMsOne c dr).1.rom_files = c.rom_files
    ∧ (matchROMsOne c dr).1.games.length = c.games.length := by
  rw [matchROMsOne_fst]
  apply foldl_allsome
  intro pr hpr
  obtain ⟨r, hrm, hpr2, hf, hv, hch, hh⟩ := hashMatches_src dr c.rom_files pr hpr
  have hsome := h r hrm hf hv hch hh
  rw [hpr2]
  simp only []
  rw [Option.isSome_iff_ne_none] at hsome
  exact hsome

theorem matchROMs_roms_length (c : Catalog) (drs : List DATRom) :
    (matchROMs c drs).1.rom_files.length = c.rom_files.length := by
  induction drs generalizing c with
  | nil => rfl
  | cons dr drs ih =>
    rw [matchROMs_cons_fst, ih, matchROMsOne_roms_length]

theorem matchROMs_games_le (c : Catalog) (drs : List DATRom) :
    c.games.length ≤ (matchROMs c drs).1.games.length := by
  induction drs generalizing c with
  | nil => exact Nat.le_refl _
  | cons dr drs ih =>
    rw [matchROMs_cons_fst]
    exact Nat.le_trans (matchROMsOne_games_le c dr) (ih _)

theorem matchROMs_ids (c : Catalog) (drs : List DATRom) :
    (matchROMs c drs).1.rom_files.map (fun r => r.id)
      = c.rom_files.map (fun r => r.id) := by
  induction drs generalizing c with
  | nil => rfl
  | cons dr drs ih =>
    rw [matchROMs_cons_fst, ih, matchROMsOne_ids]

theorem matchROMs_nodup (c : Catalog) (drs : List DATRom) (h : RomIdsNodup c) :
    RomIdsNodup (matchROMs c drs).1 := by
  unfold RomIdsNodup
  rw [matchROMs_ids]
  exact h

theorem matchROMs_rom_shape (c : Catalog) (drs : List DATRom) (i : Nat) (r : RomFile)
    (hr : c.rom_files[i]? = some r) :
    (matchROMs c drs).1.rom_files[i]? = some r
    ∨ ∃ gid, (matchROMs c drs).1.rom_files[i]? = some { r with game_id := some gid } := by
  induction drs generalizing c r with
  | nil => exact Or.inl hr
  | cons dr drs ih =>
    rw [matchROMs_cons_fst]
    rcases matchROMsOne_rom_shape c dr i r hr with h1 | ⟨gid, h1⟩
    · exact ih _ _ h1
    · rcases ih _ _ h1 with h2 | ⟨gid2, h2⟩
      · exact Or.inr ⟨gid, h2⟩
      · exact Or.inr ⟨gid2, by simpa using h2⟩

theorem matchROMs_link_preserved (c : Catalog) (drs : List DATRom) (hnd : RomIdsNodup c)
    (i : Nat) (r : RomFile) (hr : c.rom_files[i]? = some r) {gid : Nat}
    (hg : r.game_id = some gid) :
    (matchROMs c drs).1.rom_files[i]? = some r := by
  induction drs generalizing c with
  | nil => exact hr
  | cons dr drs ih =>
    rw [matchROMs_cons_fst]
    exact ih _ (matchROMsOne_nodup c dr hnd) (matchROMsOne_link_preserved c dr hnd i r hr hg)

theorem matchROMsOne_game_populated (c : Catalog) (dr : DATRom) (j : Nat) (g : Game)
    (hg : c.games[j]? = some g) {t : String} (hpop : g.title_en = some t) (ht : t ≠ "") :
    (matchROMsOne c dr).1.games[j]? = some g := by
  rw [matchROMsOne_fst]
  rcases foldl_game_getElem dr _ c j g hg with h1 | ⟨he, _, _⟩
  · exact h1
  · rcases he with he | he
    · rw [hpop] at he
      exact Option.noConfusion he
    · rw [hpop] at he
      exact absurd (Option.some.inj he) ht

theorem matchROMs_game_populated (c : Catalog) (drs : List DATRom) (j : Nat) (g : Game)
    (hg : c.games[j]? = some g) {t : String} (hpop : g.title_en = some t) (ht : t ≠ "") :
    (matchROMs c drs).1.games[j]? = some g := by
  induction drs generalizing c with
  | nil => exact hg
  | cons dr drs ih =>
    rw [matchROMs_cons_fst]
    exact ih _ (matchROMsOne_game_populated c dr j g hg hpop ht)

theorem matchROMs_satOne_preserved (c : Catalog) (dr : DATRom) (drs : List DATRom)
    (h : SatOne dr c) : SatOne dr (matchROMs c drs).1 := by
  induction drs generalizing c with
  | nil => exact h
  | cons dr2 drs ih =>
    rw [matchROMs_cons_fst]
    exact ih _ (matchROMsOne_satOne_preserved c dr dr2 h)

theorem matchROMs_saturated (c : Catalog) (drs : List DATRom) :
    SaturatedFor drs (matchROMs c drs).1 := by
  induction drs generalizing c with
  | nil => intro dr hdr; exact absurd hdr (List.not_mem_nil _)
  | cons dr drs ih =>
    intro dr2 hdr2
    rcases List.mem_cons.mp hdr2 with rfl | hmem
    · rw [matchROMs_cons_fst]
      exact matchROMs_satOne_preserved _ dr2 drs (matchROMsOne_satOne_self c dr2)
    · rw [matchROMs_cons_fst]
      exact ih (matchROMsOne c dr).1 dr2 hmem

theorem matchROMs_satrun (c : Catalog) (drs : List DATRom) (h : SaturatedFor drs c) :
    (matchROMs c drs).1.rom_files = c.rom_files
    ∧ (matchROMs c drs).1.games.length = c.games.length := by
  induction drs generalizing c with
  | nil => exact ⟨rfl, rfl⟩
  | cons dr drs ih =>
    rw [matchROMs_cons_fst]
    obtain ⟨h1, h2⟩ := matchROMsOne_satrun c dr (h dr (List.mem_cons_self _ _))
    have hsat2 : SaturatedFor drs (matchROMsOne c dr).1 := by
      intro dr2 hdr2
      exact satOne_of_roms_eq h1 (h dr2 (List.mem_cons_of_mem _ hdr2))
    obtain ⟨ih1, ih2⟩ := ih _ hsat2
    exact ⟨by rw [ih1, h1], by rw [ih2, h2]⟩

theorem matchRomStep_congr (dr dr2 : DATRom) (hgt : dr.gameTitle = dr2.gameTitle)
    (hp : dr.platform = dr2.platform) : matchRomStep dr = matchRomStep dr2 := by
  funext c pr
  unfold matchRomStep
  rw [hgt, hp]

theorem matchROMs_skip_cons (p : Catalog × Nat) (dr : DATRom) (drs : List DATRom)
    (hch : chooseHash dr = none) :
    List.foldl (fun (acc : Catalog × Nat) dr0 =>
        let r := matchROMsOne acc.1 dr0
        (r.1, acc.2 + r.2)) p (dr :: drs)
      = List.foldl (fun (acc : Catalog × Nat) dr0 =>
          let r := matchROMsOne acc.1 dr0
          (r.1, acc.2 + r.2)) p drs := by
  obtain ⟨c0, n⟩ := p
  rw [List.foldl_cons]
  have h1 : matchROMsOne c0 dr = (c0, 0) := by
    simp [matchROMsOne, hashMatches, hch]
  simp only [h1, Nat.add_zero]

theorem matchROMs_singleton_fst (c : Catalog) (dr : DATRom) :
    (matchROMs c [dr]).1 = (matchROMsOne c dr).1 := by
  rw [matchROMs_cons_fst]
  rfl

theorem foldl_game_filled (dr : DATRom) (ms : List (Nat × Option Nat)) (c : Catalog)
    (j : Nat) (g : Game) (hg : c.games[j]? = some g)
    (hempty : g.title_en = none ∨ g.title_en = some "")
    (hmem : ∃ q ∈ ms, q.2 = some g.id) :
    (ms.foldl (matchRomStep dr) c).games[j]?
      = some { g with title_en := some dr.gameTitle } := by
  induction ms generalizing c with
  | nil =>
    obtain ⟨q, hq, _⟩ := hmem
    exact absurd hq (List.not_mem_nil _)
  | cons pr ms ih =>
    rw [List.foldl_cons]
    by_cases hpr : pr.2 = some g.id
    · have hstep : (matchRomStep dr c pr).games[j]?
          = some { g with title_en := some dr.gameTitle } := by
        rcases pr with ⟨rid, go⟩
        simp only at hpr
        rw [hpr]
        simp only [matchRomStep, setTitleIfEmpty]
        rw [List.getElem?_map, hg]
        rcases hempty with he | he <;> simp [he]
      rcases foldl_game_getElem dr ms _ j _ hstep with h1 | ⟨_, h1, _⟩
      · exact h1
      · exact h1
    · rcases matchRomStep_game_getElem dr c pr j g hg with hstep | ⟨_, _, hpr2⟩
      · apply ih _ hstep
        obtain ⟨q, hq, hqid⟩ := hmem
        rcases List.mem_cons.mp hq with rfl | hq2
        · exact absurd hqid hpr
        · exact ⟨q, hq2, hqid⟩
      · exact absurd hpr2 hpr

/-- C3: for a hash-match batch, (i) a game row whose English title is
populated is never changed by the batch; (ii) a rom file that already
carries a game link keeps exactly that link (and its whole row); (iii) in a
single-record run a game row can change only by having an empty English
title filled with the record's title, and only when some rom file matching
the record's chosen hash links to that game. -/
theorem hash_match_linked_title_only (c : Catalog) (dr : DATRom) (drs : List DATRom) :
    (∀ (j : Nat) (g : Game) (t : String), c.games[j]? = some g → g.title_en = some t →
        t ≠ "" → (matchROMs c drs).1.games[j]? = some g)
    ∧ (RomIdsNodup c → ∀ (i : Nat) (r : RomFile) (gid : Nat), c.rom_files[i]? = some r →
        r.game_id = some gid → (matchROMs c drs).1.rom_files[i]? = some r)
    ∧ (∀ (j : Nat) (g : Game), c.games[j]? = some g →
        (matchROMs c [dr]).1.games[j]? = some g
        ∨ ((g.title_en = none ∨ g.title_en = some "")
           ∧ (matchROMs c [dr]).1.games[j]? = some { g with title_en := some dr.gameTitle }
           ∧ ∃ r ∈ c.rom_files, r.game_id = some g.id
              ∧ ∃ hf hv, chooseHash dr = some (hf, hv) ∧ romHash hf r = hv)) := by
  refine ⟨?_, ?_, ?_⟩
  · intro j g t hg hpop ht
    exact matchROMs_game_populated c drs j g hg hpop ht
  · intro hnd i r gid hr hg
    exact matchROMs_link_preserved c drs hnd i r hr hg
  · intro j g hg
    rw [matchROMs_singleton_fst, matchROMsOne_fst]
    rcases foldl_game_getElem dr (hashMatches dr c.rom_files) c j g hg with h1 | ⟨he, h1, q, hq, hqid⟩
    · exact Or.inl h1
    · obtain ⟨r, hrm, hpr2, hf, hv, hch, hh⟩ := hashMatches_src dr c.rom_files q hq
      refine Or.inr ⟨he, h1, r, hrm, ?_, hf, hv, hch, hh⟩
      rw [hpr2] at hqid
      exact hqid

/-- C4: a checksum record with a non-empty SHA1 links every previously
unlinked rom file whose SHA1 matches to a game row carrying the record's
English title; and re-running the same batch on its own output creates no
game rows and leaves the rom-file table (in particular every game link)
unchanged. -/
theorem hash_match_links_and_rerun_stable (c : Catalog) (dr : DATRom) (drs : List DATRom) :
    (RomIdsNodup c → dr.sha1 ≠ "" → ∀ (i : Nat) (r : RomFile), c.rom_files[i]? = some r →
        r.game_id = none → r.hash_sha1 = dr.sha1 →
        ∃ gid, (matchROMs c [dr]).1.rom_files[i]? = some { r with game_id := some gid }
          ∧ ∃ g ∈ (matchROMs c [dr]).1.games, g.id = gid ∧ g.title_en = some dr.gameTitle)
    ∧ (matchROMs (matchROMs c drs).1 drs).1.games.length = (matchROMs c drs).1.games.length
    ∧ (matchROMs (matchROMs c drs).1 drs).1.rom_files = (matchROMs c drs).1.rom_files := by
  refine ⟨?_, ?_, ?_⟩
  · intro hnd hsha i r hr hnone hh
    have hch : chooseHash dr = some (HashField.sha1, dr.sha1) := by
      simp [chooseHash, hsha]
    rw [matchROMs_singleton_fst]
    obtain ⟨gid, h1, h2⟩ :=
      matchROMsOne_links_unlinked c dr hnd i r hr hnone HashField.sha1 dr.sha1 hch hh
    exact ⟨gid, h1, h2⟩
  · exact (matchROMs_satrun _ drs (matchROMs_saturated c drs)).2
  · exact (matchROMs_satrun _ drs (matchROMs_saturated c drs)).1

/-- C5: hash-field selection uses exactly the first non-empty field in the
order SHA1, MD5, CRC32: with a non-empty SHA1 the MD5 and CRC32 values are
never consulted (the single-record match is invariant under changing them);
and a record whose three hash fields are all empty is skipped, leaving the
rest of the batch to produce exactly the same result. -/
theorem hash_priority_and_skip (dr : DATRom) :
    (dr.sha1 ≠ "" → chooseHash dr = some (HashField.sha1, dr.sha1)
      ∧ ∀ (c : Catalog) (m2 c2 : String),
          matchROMsOne c { dr with md5 := m2, crc32 := c2 } = matchROMsOne c dr)
    ∧ (dr.sha1 = "" → dr.md5 ≠ "" → chooseHash dr = some (HashField.md5, dr.md5))
    ∧ (dr.sha1 = "" → dr.md5 = "" → dr.crc32 ≠ "" →
        chooseHash dr = some (HashField.crc32, dr.crc32))
    ∧ (dr.sha1 = "" → dr.md5 = "" → dr.crc32 = "" →
        ∀ (c : Catalog) (drs1 drs2 : List DATRom),
          matchROMs c (drs1 ++ dr :: drs2) = matchROMs c (drs1 ++ drs2)) := by
  refine ⟨?_, ?_, ?_, ?_⟩
  · intro hsha
    constructor
    · simp [chooseHash, hsha]
    · intro c m2 c2
      have hch : chooseHash { dr with md5 := m2, crc32 := c2 } = chooseHash dr := by
        simp [chooseHash, hsha]
      have hstep : matchRomStep { dr with md5 := m2, crc32 := c2 } = matchRomStep dr :=
        matchRomStep_congr _ _ rfl rfl
      unfold matchROMsOne hashMatches
      rw [hch, hstep]
  · intro h1 h2
    simp [chooseHash, h1, h2]
  · intro h1 h2 h3
    simp [chooseHash, h1, h2, h3]
  · intro h1 h2 h3 c drs1 drs2
    have hch : chooseHash dr = none := by simp [chooseHash, h1, h2, h3]
    unfold matchROMs
    rw [List.foldl_append, List.foldl_append]
    exact matchROMs_skip_cons _ dr drs2 hch

/-- C10: hash-match candidate selection is hash-only: the snapshot of
matching rom files is independent of the record's platform, a matching
unlinked rom file on a different platform still gets linked, and a matching
already linked rom file on a different platform still gets its game's empty
English title filled; the record's platform enters only the game row that is
found or created. -/
theorem hash_match_no_platform_filter (c : Catalog) (dr : DATRom) (hnd : RomIdsNodup c)
    (i : Nat) (r : RomFile) (hr : c.rom_files[i]? = some r)
    (hsha : dr.sha1 ≠ "") (hmatch : r.hash_sha1 = dr.sha1)
    (hplat : r.platform ≠ dr.platform) :
    (∀ p2 : String, hashMatches { dr with platform := p2 } c.rom_files
        = hashMatches dr c.rom_files)
    ∧ (r.game_id = none →
        ∃ gid, (matchROMs c [dr]).1.rom_files[i]? = some { r with game_id := some gid })
    ∧ (∀ (gid j : Nat) (g : Game), r.game_id = some gid → c.games[j]? = some g →
        g.id = gid → (g.title_en = none ∨ g.title_en = some "") →
        (matchROMs c [dr]).1.games[j]? = some { g with title_en := some dr.gameTitle }) := by
  have hch : chooseHash dr = some (HashField.sha1, dr.sha1) := by
    simp [chooseHash, hsha]
  refine ⟨?_, ?_, ?_⟩
  · intro p2
    rfl
  · intro hnone
    rw [matchROMs_singleton_fst]
    obtain ⟨gid, h1, _⟩ :=
      matchROMsOne_links_unlinked c dr hnd i r hr hnone HashField.sha1 dr.sha1 hch hmatch
    exact ⟨gid, h1⟩
  · intro gid j g hgid hg hgideq hempty
    rw [matchROMs_singleton_fst, matchROMsOne_fst]
    apply foldl_game_filled dr _ c j g hg hempty
    refine ⟨(r.id, r.game_id), ?_, ?_⟩
    · exact hashMatches_mem dr c.rom_files HashField.sha1 dr.sha1 hch r
        (List.getElem?_mem hr) hmatch
    · rw [hgid, hgideq]

theorem foldl_linkRom_getElem (gid : Nat) (rids : List Nat) (roms : List RomFile)
    (i : Nat) (r : RomFile) (hr : roms[i]? = some r) :
    (r.id ∈ rids →
      (rids.foldl (fun rs rid => linkRom gid rid rs) roms)[i]? = some { r with game_id := some gid })
    ∧ (r.id ∉ rids →
      (rids.foldl (fun rs rid => linkRom gid rid rs) roms)[i]? = some r) := by
  induction rids generalizing roms r with
  | nil =>
    exact ⟨fun hmem => absurd hmem (List.not_mem_nil _), fun _ => hr⟩
  | cons rid rest ih =>
    rw [List.foldl_cons]
    by_cases hid : r.id = rid
    · have hstep : (linkRom gid rid roms)[i]? = some { r with game_id := some gid } := by
        simp [linkRom, List.getElem?_map, hr, hid]
      have hrec := ih (linkRom gid rid roms) _ hstep
      constructor
      · intro _
        by_cases hrest : ({ r with game_id := some gid } : RomFile).id ∈ rest
        · have h2 := hrec.1 hrest
          simpa using h2
        · exact hrec.2 hrest
      · intro hnot
        exact absurd (hid ▸ List.mem_cons_self rid rest) hnot
    · have hstep : (linkRom gid rid roms)[i]? = some r := by
        simp [linkRom, List.getElem?_map, hr, hid]
      have hrec := ih (linkRom gid rid roms) _ hstep
      constructor
      · intro hmem
        rcases List.mem_cons.mp hmem with heq | hrest
        · exact absurd heq hid
        · exact hrec.1 hrest
      · intro hnot
        exact hrec.2 (fun h => hnot (List.mem_cons_of_mem _ h))

theorem matchByGameList_singleton (c : Catalog) (e : GameListEntry) (p : String) :
    (matchByGameList c [e] p).1 = (matchByGameListOne c p e).1 := by
  unfold matchByGameList
  rw [List.foldl_cons, List.foldl_nil]

theorem matchByGameListOne_links (c : Catalog) (e : GameListEntry) (p : String)
    (i : Nat) (r : RomFile) (hr : c.rom_files[i]? = some r)
    (hplat : r.platform = p) (hfn : gamelistFilenameMatch e.filename r.filename = true) :
    ∃ gid, (matchByGameListOne c p e).1.rom_files[i]? = some { r with game_id := some gid }
      ∧ ∃ g ∈ (matchByGameListOne c p e).1.games, g.id = gid ∧ g.title_ja = some e.name := by
  have hrfil : r ∈ c.rom_files.filter (fun r2 =>
      decide (r2.platform = p) && gamelistFilenameMatch e.filename r2.filename) :=
    List.mem_filter.mpr ⟨List.getElem?_mem hr, by simp [hplat, hfn]⟩
  have hrid : r.id ∈ (c.rom_files.filter (fun r2 =>
      decide (r2.platform = p) && gamelistFilenameMatch e.filename r2.filename)).map
        (fun r2 => r2.id) := List.mem_map_of_mem _ hrfil
  have hne : ((c.rom_files.filter (fun r2 =>
      decide (r2.platform = p) && gamelistFilenameMatch e.filename r2.filename)).map
        (fun r2 => r2.id)) ≠ [] := List.ne_nil_of_mem hrid
  unfold matchByGameListOne
  rw [if_neg hne]
  cases hfind : c.games.find? (fun g => decide (g.title_ja = some e.name ∧ g.platform = p)) with
  | some g =>
    refine ⟨g.id, ?_, ?_⟩
    · exact (foldl_linkRom_getElem g.id _ _ i r hr).1 hrid
    · have hmem := List.mem_of_find?_eq_some hfind
      have hprop := List.find?_some hfind
      simp only [decide_eq_true_eq] at hprop
      refine ⟨mergeRow e g, ?_, rfl, hprop.1⟩
      simp only [mergeEntryMeta]
      exact List.mem_map.mpr ⟨g, hmem, by simp⟩
  | none =>
    refine ⟨c.next_game_id, ?_, ?_⟩
    · exact (foldl_linkRom_getElem c.next_game_id _ _ i r hr).1 hrid
    · exact ⟨newGameFromEntry c.next_game_id e p,
        List.mem_append_right _ (List.mem_singleton_self _), rfl, rfl⟩

theorem matchByGameListOne_untouched (c : Catalog) (e : GameListEntry) (p : String)
    (hnd : RomIdsNodup c) (i : Nat) (r : RomFile) (hr : c.rom_files[i]? = some r)
    (hno : ¬(r.platform = p ∧ gamelistFilenameMatch e.filename r.filename = true)) :
    (matchByGameListOne c p e).1.rom_files[i]? = some r := by
  have hrnotfil : r ∉ c.rom_files.filter (fun r2 =>
      decide (r2.platform = p) && gamelistFilenameMatch e.filename r2.filename) := by
    intro hmem
    have hcond := (List.mem_filter.mp hmem).2
    simp only [Bool.and_eq_true, decide_eq_true_eq] at hcond
    exact hno hcond
  have hridnot : r.id ∉ (c.rom_files.filter (fun r2 =>
      decide (r2.platform = p) && gamelistFilenameMatch e.filename r2.filename)).map
        (fun r2 => r2.id) := by
    intro hmem
    obtain ⟨r2, hr2fil, hr2id⟩ := List.mem_map.mp hmem
    have hr2m : r2 ∈ c.rom_files := (List.mem_filter.mp hr2fil).1
    have hrm : r ∈ c.rom_files := List.getElem?_mem hr
    have : r2 = r := List.inj_on_of_nodup_map hnd hr2m hrm hr2id
    rw [this] at hr2fil
    exact hrnotfil hr2fil
  unfold matchByGameListOne
  by_cases hempty : ((c.rom_files.filter (fun r2 =>
      decide (r2.platform = p) && gamelistFilenameMatch e.filename r2.filename)).map
        (fun r2 => r2.id)) = []
  · rw [if_pos hempty]
    exact hr
  · rw [if_neg hempty]
    cases hfind : c.games.find? (fun g => decide (g.title_ja = some e.name ∧ g.platform = p)) with
    | some g => exact (foldl_linkRom_getElem g.id _ _ i r hr).2 hridnot
    | none => exact (foldl_linkRom_getElem c.next_game_id _ _ i r hr).2 hridnot

/-- The three filename shapes as the spec words them: exactly `F`,
`<anything>/F`, or `F/<anything>`. -/
def SpecFilenameShape (fname filename : String) : Prop :=
  filename = fname ∨ (∃ t, filename = t ++ "/" ++ fname)
    ∨ (∃ t, filename = fname ++ "/" ++ t)

theorem string_eq_iff_data (s1 s2 : String) : s1 = s2 ↔ s1.data = s2.data := by
  constructor
  · intro h; rw [h]
  · intro h
    cases s1
    cases s2
    simp only at h
    rw [h]

theorem literalFilenameMatch_iff_shape (fname filename : String) :
    literalFilenameMatch fname filename = true ↔ SpecFilenameShape fname filename := by
  unfold literalFilenameMatch SpecFilenameShape
  simp only [Bool.or_eq_true, decide_eq_true_eq]
  constructor
  · rintro ((h | h) | h)
    · exact Or.inl h
    · rw [sufOf_iff] at h
      obtain ⟨t, ht⟩ := h
      refine Or.inr (Or.inl ⟨⟨t⟩, ?_⟩)
      rw [string_eq_iff_data]
      simpa [String.data_append] using ht
    · rw [prefOf_iff] at h
      obtain ⟨t, ht⟩ := h
      refine Or.inr (Or.inr ⟨⟨t⟩, ?_⟩)
      rw [string_eq_iff_data]
      simpa [String.data_append] using ht
  · rintro (h | ⟨t, ht⟩ | ⟨t, ht⟩)
    · exact Or.inl (Or.inl h)
    · refine Or.inl (Or.inr ?_)
      rw [sufOf_iff]
      refine ⟨t.data, ?_⟩
      rw [string_eq_iff_data] at ht
      simpa [String.data_append] using ht
    · refine Or.inr ?_
      rw [prefOf_iff]
      refine ⟨t.data, ?_⟩
      rw [string_eq_iff_data] at ht
      simpa [String.data_append] using ht

/-- C6: a metadata-list entry links every matching rom file to the
found-or-created game row (whose native title is the entry's name)
unconditionally, whatever game link the rom file carried before; by
contrast, the hash-based match never changes the link of an already linked
rom file. -/
theorem gamelist_match_relinks_hash_match_never (c : Catalog) (e : GameListEntry)
    (p : String) (i : Nat) (r : RomFile) (hr : c.rom_files[i]? = some r)
    (hplat : r.platform = p) (hfn : gamelistFilenameMatch e.filename r.filename = true) :
    (∃ gid, (matchByGameList c [e] p).1.rom_files[i]? = some { r with game_id := some gid }
      ∧ ∃ g ∈ (matchByGameList c [e] p).1.games, g.id = gid ∧ g.title_ja = some e.name)
    ∧ (RomIdsNodup c → ∀ (drs : List DATRom) (gid : Nat), r.game_id = some gid →
        (matchROMs c drs).1.rom_files[i]? = some r) := by
  constructor
  · rw [matchByGameList_singleton]
    exact matchByGameListOne_links c e p i r hr hplat hfn
  · intro hnd drs gid hg
    exact matchROMs_link_preserved c drs hnd i r hr hg

/-! ### C1: counterexample and amended merge semantics -/

def cexC1Game : Game :=
  { id := 1, title_en := none, title_ja := some "Game1", description_ja := none,
    platform := "FC", developer := some "DevA", publisher := none, release_date := none,
    genre := none, players := none, rating := none }

def cexC1Rom : RomFile :=
  { id := 1, path := "/roms/fc/a.nes", filename := "a.nes", size := 5,
    hash_crc32 := "C", hash_md5 := "M", hash_sha1 := "S", platform := "FC",
    game_id := none }

def cexC1Catalog : Catalog :=
  { games := [cexC1Game], rom_files := [cexC1Rom], next_game_id := 2, next_rom_id := 2 }

def cexC1Entry : GameListEntry :=
  { filename := "a.nes", name := "Game1", desc := "", releaseDate := "",
    developer := "DevB", publisher := "", genre := "", players := "", rating := "" }

/-- C1 counterexample: the stored game's developer is `DevA` (non-empty),
the incoming entry's developer is `DevB`, and after the metadata-list merge
the stored value is `DevB`, not `DevA` — the merge overwrote a populated
field; `UpdateGameMetadata` behaves the same way.  The claim "a field that
is already non-empty keeps its old value" is therefore false. -/
theorem gamelist_merge_overwrites_cex :
    cexC1Catalog.games.map (fun g => g.developer) = [some "DevA"]
    ∧ (matchByGameList cexC1Catalog [cexC1Entry] "FC").1.games.map (fun g => g.developer)
        = [some "DevB"]
    ∧ (updateGameMetadata cexC1Catalog 1 "" "" "DevB" "" "" "" "").games.map
        (fun g => g.developer) = [some "DevB"] := by
  refine ⟨by decide, by decide, by decide⟩

/-- C1 amended: both the metadata-list merge on an existing game and the
secondary-enrichment update set each descriptive field to
`COALESCE(NULLIF(incoming, ''), stored)`: a non-empty incoming value always
wins (filling empty fields but also overwriting populated ones), and the
stored value survives exactly when the incoming value is empty; native
title, English title and platform are untouched by the metadata-list merge. -/
theorem gamelist_merge_incoming_wins (c : Catalog) (e : GameListEntry) (p : String)
    (g : Game) (hgnd : GameIdsNodup c)
    (hfind : c.games.find? (fun g2 => decide (g2.title_ja = some e.name ∧ g2.platform = p))
      = some g)
    (hrom : (c.rom_files.filter (fun r =>
      decide (r.platform = p) && gamelistFilenameMatch e.filename r.filename)) ≠ []) :
    (∀ g2 ∈ (matchByGameList c [e] p).1.games, g2.id = g.id →
      g2 = mergeRow e g
      ∧ g2.description_ja = coalesceNullif e.desc g.description_ja
      ∧ g2.developer = coalesceNullif e.developer g.developer
      ∧ g2.publisher = coalesceNullif e.publisher g.publisher
      ∧ g2.release_date = coalesceNullif e.releaseDate g.release_date
      ∧ g2.genre = coalesceNullif e.genre g.genre
      ∧ g2.players = coalesceNullif e.players g.players
      ∧ g2.rating = coalesceNullif e.rating g.rating
      ∧ g2.title_ja = g.title_ja ∧ g2.title_en = g.title_en ∧ g2.platform = g.platform)
    ∧ (∀ (gid : Nat) (g3 : Game) (tja dja dev pub rd gen pl : String), g3 ∈ c.games →
        g3.id = gid →
        ∀ g4 ∈ (updateGameMetadata c gid tja dja dev pub rd gen pl).games, g4.id = gid →
          g4.title_ja = coalesceNullif tja g3.title_ja
          ∧ g4.description_ja = coalesceNullif dja g3.description_ja
          ∧ g4.developer = coalesceNullif dev g3.developer
          ∧ g4.publisher = coalesceNullif pub g3.publisher
          ∧ g4.release_date = coalesceNullif rd g3.release_date
          ∧ g4.genre = coalesceNullif gen g3.genre
          ∧ g4.players = coalesceNullif pl g3.players) := by
  constructor
  · intro g2 hg2 hid
    rw [matchByGameList_singleton] at hg2
    have hne : ((c.rom_files.filter (fun r =>
        decide (r.platform = p) && gamelistFilenameMatch e.filename r.filename)).map
          (fun r => r.id)) ≠ [] := by
      intro hnil
      exact hrom (List.map_eq_nil_iff.mp hnil)
    unfold matchByGameListOne at hg2
    rw [if_neg hne, hfind] at hg2
    simp only [mergeEntryMeta] at hg2
    obtain ⟨g0, hg0, hg0eq⟩ := List.mem_map.mp hg2
    have hgmem : g ∈ c.games := List.mem_of_find?_eq_some hfind
    by_cases h0 : g0.id = g.id
    · rw [if_pos h0] at hg0eq
      have : g0 = g := List.inj_on_of_nodup_map hgnd hg0 hgmem h0
      subst this
      rw [← hg0eq]
      exact ⟨rfl, rfl, rfl, rfl, rfl, rfl, rfl, rfl, rfl, rfl, rfl⟩
    · rw [if_neg h0] at hg0eq
      rw [← hg0eq] at hid
      exact absurd hid h0
  · intro gid g3 tja dja dev pub rd gen pl hg3 hg3id g4 hg4 hg4id
    unfold updateGameMetadata at hg4
    simp only at hg4
    obtain ⟨g0, hg0, hg0eq⟩ := List.mem_map.mp hg4
    by_cases h0 : g0.id = gid
    · rw [if_pos h0] at hg0eq
      have : g0 = g3 := List.inj_on_of_nodup_map hgnd hg0 hg3 (by rw [h0, hg3id])
      subst this
      rw [← hg0eq]
      exact ⟨rfl, rfl, rfl, rfl, rfl, rfl, rfl⟩
    · rw [if_neg h0] at hg0eq
      rw [← hg0eq] at hg4id
      exact absurd hg4id h0

/-! ### C2: counterexample and amended container-entry identity -/

/-- Rom-file rows have pairwise distinct identity keys (the UNIQUE
constraint on `path`). -/
def PathsNodup (c : Catalog) : Prop :=
  (c.rom_files.map (fun r => r.path)).Nodup

def emptyCatalog : Catalog :=
  { games := [], rom_files := [], next_game_id := 1, next_rom_id := 1 }

def cexC2EntryA : ZipEntry :=
  { name := "a.nes", isDir := false, size := 10, crc32 := "C1", md5 := "M1", sha1 := "S1" }

def cexC2EntryB : ZipEntry :=
  { name := "b.nes", isDir := false, size := 20, crc32 := "C2", md5 := "M2", sha1 := "S2" }

/-- C2 counterexample: a carrier container with two qualifying entries
(`a.nes` and `b.nes` inside `game.zip` on platform FC) yields ONE rom-file
row, not two: both entries are upserted under the identity key
`/roms/fc/game.zip` (the container path alone), so the second upsert
replaces the first and only `game.zip/b.nes` survives.  The claim that the
identity key combines the container's path with the entry's internal name,
so that neither upsert replaces the other, is therefore false. -/
theorem zip_entries_share_identity_key_cex :
    (scanZipContents "/roms/fc/game.zip" "FC" [cexC2EntryA, cexC2EntryB]
        emptyCatalog).1.rom_files.length = 1
    ∧ (scanZipContents "/roms/fc/game.zip" "FC" [cexC2EntryA, cexC2EntryB]
        emptyCatalog).1.rom_files.map (fun r => (r.path, r.filename))
      = [("/roms/fc/game.zip", "game.zip/b.nes")] := by
  refine ⟨by decide, by decide⟩

theorem upsert_mem (c : Catalog) (path fn : String) (sz : Int) (a b d pf : String)
    (r : RomFile) (hr : r ∈ (upsertRomFile c path fn sz a b d pf).rom_files) :
    r ∈ c.rom_files ∨ (r.path = path ∧ r.filename = fn) := by
  rw [upsertRomFile_eq] at hr
  by_cases hany : (c.rom_files.any fun r2 => decide (r2.path = path)) = true
  · rw [if_pos hany] at hr
    obtain ⟨r0, hr0, hr0eq⟩ := List.mem_map.mp hr
    by_cases hp : r0.path = path
    · rw [if_pos hp] at hr0eq
      right
      rw [← hr0eq]
      exact ⟨hp, rfl⟩
    · rw [if_neg hp] at hr0eq
      rw [← hr0eq]
      exact Or.inl hr0
  · rw [if_neg hany] at hr
    rcases List.mem_append.mp hr with h1 | h1
    · exact Or.inl h1
    · right
      rw [List.mem_singleton.mp h1]
      exact ⟨rfl, rfl⟩

theorem upsert_paths_of_present (c : Catalog) (path fn : String) (sz : Int)
    (a b d pf : String) (hany : (c.rom_files.any fun r => decide (r.path = path)) = true) :
    (upsertRomFile c path fn sz a b d pf).rom_files.map (fun r => r.path)
      = c.rom_files.map (fun r => r.path) := by
  rw [upsertRomFile_eq, if_pos hany]
  simp only [List.map_map]
  apply List.map_congr_left
  intro r _
  by_cases hp : r.path = path
  · simp [Function.comp, hp, replaceFields]
  · simp [Function.comp, hp]

theorem upsert_paths_of_absent (c : Catalog) (path fn : String) (sz : Int)
    (a b d pf : String) (hany : ¬(c.rom_files.any fun r => decide (r.path = path)) = true) :
    (upsertRomFile c path fn sz a b d pf).rom_files.map (fun r => r.path)
      = c.rom_files.map (fun r => r.path) ++ [path] := by
  rw [upsertRomFile_eq, if_neg hany]
  simp

theorem any_path_iff (roms : List RomFile) (path : String) :
    (roms.any fun r => decide (r.path = path)) = true ↔ path ∈ roms.map (fun r => r.path) := by
  rw [List.any_eq_true, List.mem_map]
  constructor
  · rintro ⟨r, hr, hp⟩
    exact ⟨r, hr, by simpa using hp⟩
  · rintro ⟨r, hr, hp⟩
    exact ⟨r, hr, by simpa using hp⟩

theorem scanZip_fold_len_present (zipPath platform : String) (entries : List ZipEntry) :
    ∀ (c : Catalog) (fl : Bool),
    (c.rom_files.any fun r => decide (r.path = zipPath)) = true →
    (entries.foldl (fun (acc : Catalog × Bool) f =>
        if f.isDir then acc
        else if !(isValidExtension platform (lowerExt f.name)) then acc
        else (upsertRomFile acc.1 zipPath (baseName zipPath ++ "/" ++ f.name) f.size
          f.crc32 f.md5 f.sha1 platform, true)) (c, fl)).1.rom_files.length
      = c.rom_files.length := by
  induction entries with
  | nil => intro c fl _; rfl
  | cons f fs ih =>
    intro c fl hany
    rw [List.foldl_cons]
    by_cases hdir : f.isDir = true
    · simp only [hdir, if_true]
      exact ih c fl hany
    · rw [if_neg hdir]
      by_cases hext : isValidExtension platform (lowerExt f.name) = true
      · rw [if_neg (by simp [hext])]
        have hpaths := upsert_paths_of_present c zipPath
          (baseName zipPath ++ "/" ++ f.name) f.size f.crc32 f.md5 f.sha1 platform hany
        have hany1 : ((upsertRomFile c zipPath (baseName zipPath ++ "/" ++ f.name) f.size
            f.crc32 f.md5 f.sha1 platform).rom_files.any
              fun r => decide (r.path = zipPath)) = true := by
          rw [any_path_iff, hpaths]
          exact (any_path_iff c.rom_files zipPath).mp hany
        have hlen1 : (upsertRomFile c zipPath (baseName zipPath ++ "/" ++ f.name) f.size
            f.crc32 f.md5 f.sha1 platform).rom_files.length = c.rom_files.length := by
          have hl := congrArg List.length hpaths
          simpa using hl
        rw [ih _ true hany1, hlen1]
      · rw [if_pos (by simp [hext])]
        exact ih c fl hany

theorem scanZip_fold_inv (zipPath platform : String) (entries : List ZipEntry) :
    ∀ (c : Catalog) (fl : Bool), PathsNodup c →
    PathsNodup (entries.foldl (fun (acc : Catalog × Bool) f =>
        if f.isDir then acc
        else if !(isValidExtension platform (lowerExt f.name)) then acc
        else (upsertRomFile acc.1 zipPath (baseName zipPath ++ "/" ++ f.name) f.size
          f.crc32 f.md5 f.sha1 platform, true)) (c, fl)).1
    ∧ ((entries.foldl (fun (acc : Catalog × Bool) f =>
        if f.isDir then acc
        else if !(isValidExtension platform (lowerExt f.name)) then acc
        else (upsertRomFile acc.1 zipPath (baseName zipPath ++ "/" ++ f.name) f.size
          f.crc32 f.md5 f.sha1 platform, true)) (c, fl)).1.rom_files.length
          = c.rom_files.length
      ∨ (entries.foldl (fun (acc : Catalog × Bool) f =>
          if f.isDir then acc
          else if !(isValidExtension platform (lowerExt f.name)) then acc
          else (upsertRomFile acc.1 zipPath (baseName zipPath ++ "/" ++ f.name) f.size
            f.crc32 f.md5 f.sha1 platform, true)) (c, fl)).1.rom_files.length
          = c.rom_files.length + 1)
    ∧ (∀ r ∈ (entries.foldl (fun (acc : Catalog × Bool) f =>
        if f.isDir then acc
        else if !(isValidExtension platform (lowerExt f.name)) then acc
        else (upsertRomFile acc.1 zipPath (baseName zipPath ++ "/" ++ f.name) f.size
          f.crc32 f.md5 f.sha1 platform, true)) (c, fl)).1.rom_files,
        r ∈ c.rom_files ∨ (r.path = zipPath ∧ ∃ f ∈ entries, f.isDir = false
          ∧ isValidExtension platform (lowerExt f.name) = true
          ∧ r.filename = baseName zipPath ++ "/" ++ f.name)) := by
  induction entries with
  | nil =>
    intro c fl hnd
    exact ⟨hnd, Or.inl rfl, fun r hr => Or.inl hr⟩
  | cons f fs ih =>
    intro c fl hnd
    rw [List.foldl_cons]
    by_cases hdir : f.isDir = true
    · simp only [hdir, if_true]
      obtain ⟨ih1, ih2, ih3⟩ := ih c fl hnd
      refine ⟨ih1, ih2, ?_⟩
      intro r hr
      rcases ih3 r hr with h1 | ⟨h2, f2, hf2, hrest⟩
      · exact Or.inl h1
      · exact Or.inr ⟨h2, f2, List.mem_cons_of_mem _ hf2, hrest⟩
    · rw [if_neg hdir]
      by_cases hext : isValidExtension platform (lowerExt f.name) = true
      · rw [if_neg (by simp [hext])]
        set c1 : Catalog := upsertRomFile c zipPath (baseName zipPath ++ "/" ++ f.name)
          f.size f.crc32 f.md5 f.sha1 platform with hc1
        by_cases hany : (c.rom_files.any fun r => decide (r.path = zipPath)) = true
        · have hpaths : c1.rom_files.map (fun r => r.path)
              = c.rom_files.map (fun r => r.path) :=
            upsert_paths_of_present c zipPath _ f.size f.crc32 f.md5 f.sha1 platform hany
          have hnd1 : PathsNodup c1 := by
            unfold PathsNodup
            rw [hpaths]
            exact hnd
          have hlen1 : c1.rom_files.length = c.rom_files.length := by
            have := congrArg List.length hpaths
            simpa using this
          obtain ⟨ih1, ih2, ih3⟩ := ih c1 true hnd1
          refine ⟨ih1, ?_, ?_⟩
          · rw [hlen1] at ih2
            exact ih2
          · intro r hr
            rcases ih3 r hr with h1 | ⟨h2, f2, hf2, hrest⟩
            · rcases upsert_mem c zipPath _ f.size f.crc32 f.md5 f.sha1 platform r h1
                with h3 | ⟨h3, h4⟩
              · exact Or.inl h3
              · exact Or.inr ⟨h3, f, List.mem_cons_self _ _,
                  Bool.not_eq_true _ ▸ hdir, hext, h4⟩
            · exact Or.inr ⟨h2, f2, List.mem_cons_of_mem _ hf2, hrest⟩
        · have hpaths : c1.rom_files.map (fun r => r.path)
              = c.rom_files.map (fun r => r.path) ++ [zipPath] :=
            upsert_paths_of_absent c zipPath _ f.size f.crc32 f.md5 f.sha1 platform hany
          have hnd1 : PathsNodup c1 := by
            unfold PathsNodup
            rw [hpaths]
            rw [List.nodup_middle]
            rw [List.nodup_cons]
            constructor
            · intro hmem
              rw [List.append_nil] at hmem
              exact hany ((any_path_iff c.rom_files zipPath).mpr hmem)
            · rw [List.append_nil]
              exact hnd
          have hlen1 : c1.rom_files.length = c.rom_files.length + 1 := by
            have := congrArg List.length hpaths
            simpa using this
          obtain ⟨ih1, _, ih3⟩ := ih c1 true hnd1
          refine ⟨ih1, ?_, ?_⟩
          · have hany1 : (c1.rom_files.any fun r => decide (r.path = zipPath)) = true := by
              rw [any_path_iff, hpaths]
              exact List.mem_append_right _ (List.mem_singleton_self _)
            have hfin := scanZip_fold_len_present zipPath platform fs c1 true hany1
            rw [hfin, hlen1]
            exact Or.inr rfl
          · intro r hr
            rcases ih3 r hr with h1 | ⟨h2, f2, hf2, hrest⟩
            · rcases upsert_mem c zipPath _ f.size f.crc32 f.md5 f.sha1 platform r h1
                with h3 | ⟨h3, h4⟩
              · exact Or.inl h3
              · exact Or.inr ⟨h3, f, List.mem_cons_self _ _,
                  Bool.not_eq_true _ ▸ hdir, hext, h4⟩
            · exact Or.inr ⟨h2, f2, List.mem_cons_of_mem _ hf2, hrest⟩
      · rw [if_pos (by simp [hext])]
        obtain ⟨ih1, ih2, ih3⟩ := ih c fl hnd
        refine ⟨ih1, ih2, ?_⟩
        intro r hr
        rcases ih3 r hr with h1 | ⟨h2, f2, hf2, hrest⟩
        · exact Or.inl h1
        · exact Or.inr ⟨h2, f2, List.mem_cons_of_mem _ hf2, hrest⟩

/-- C2 amended: every rom-file row a carrier-container scan writes uses the
container's path ALONE as its identity key (with display name
`<container-basename>/<entry-name>` from some qualifying entry), so the
whole container contributes at most one new row — later qualifying entries
replace earlier ones instead of coexisting with them. -/
theorem scanZip_container_key_single_row (zipPath platform : String)
    (entries : List ZipEntry) (c : Catalog) (hnd : PathsNodup c) :
    PathsNodup (scanZipContents zipPath platform entries c).1
    ∧ (scanZipContents zipPath platform entries c).1.rom_files.length
        ≤ c.rom_files.length + 1
    ∧ (∀ r ∈ (scanZipContents zipPath platform entries c).1.rom_files,
        r ∈ c.rom_files ∨ (r.path = zipPath ∧ ∃ f ∈ entries, f.isDir = false
          ∧ isValidExtension platform (lowerExt f.name) = true
          ∧ r.filename = baseName zipPath ++ "/" ++ f.name)) := by
  unfold scanZipContents
  obtain ⟨h1, h2, h3⟩ := scanZip_fold_inv zipPath platform entries c false hnd
  refine ⟨h1, ?_, h3⟩
  rcases h2 with h | h
  · rw [h]
    exact Nat.le_succ _
  · rw [h]

/-! ### C7: ordered platform detection from the DAT header -/

theorem strToLowerData_append (s1 s2 : String) :
    strToLowerData (s1 ++ s2) = strToLowerData s1 ++ strToLowerData s2 := by
  unfold strToLowerData
  rw [String.data_append, List.map_append]

/-- C7: header-title platform inference follows the explicit longest-first
order: any title containing "Nintendo - Game Boy Advance" resolves to GBA
(that pattern is checked first); any title containing "Nintendo - Game Boy
Color" never resolves to GB (the color pattern is checked before the bare
"game boy" pattern); and on the spec's two concrete headers the results are
GBA and GBC. -/
theorem detect_platform_ordered (name : String) :
    (strContains name "Nintendo - Game Boy Advance" = true →
        detectPlatformFromHeader name = "GBA")
    ∧ (strContains name "Nintendo - Game Boy Color" = true →
        detectPlatformFromHeader name ≠ "GB")
    ∧ detectPlatformFromHeader "Nintendo - Game Boy Advance" = "GBA"
    ∧ detectPlatformFromHeader "Nintendo - Game Boy Color" = "GBC" := by
  have hlowgba : "Nintendo - Game Boy Advance".data.map lowerChar
      = "nintendo - game boy advance".data := by decide
  have hlowgbc : "Nintendo - Game Boy Color".data.map lowerChar
      = "nintendo - game boy color".data := by decide
  have hsubgba : infOf "game boy advance".data "nintendo - game boy advance".data = true := by
    decide
  have hsubgbc : infOf "game boy color".data "nintendo - game boy color".data = true := by
    decide
  refine ⟨?_, ?_, by decide, by decide⟩
  · intro hc
    have h1 : infOf "nintendo - game boy advance".data (strToLowerData name) = true := by
      have h2 := infOf_map lowerChar hc
      rw [hlowgba] at h2
      exact h2
    have hgba : infOf "game boy advance".data (strToLowerData name) = true :=
      infOf_trans hsubgba h1
    unfold detectPlatformFromHeader datOrder
    rw [firstMatch, if_pos hgba]
    decide
  · intro hc
    have h1 : infOf "nintendo - game boy color".data (strToLowerData name) = true := by
      have h2 := infOf_map lowerChar hc
      rw [hlowgbc] at h2
      exact h2
    have hgbc : infOf "game boy color".data (strToLowerData name) = true :=
      infOf_trans hsubgbc h1
    unfold detectPlatformFromHeader datOrder
    rw [firstMatch]
    by_cases hgba : infOf "game boy advance".data (strToLowerData name) = true
    · rw [if_pos hgba]
      decide
    · rw [if_neg hgba, firstMatch, if_pos hgbc]
      decide

/-! ### Concrete witness data -/

def wGamePop : Game :=
  { id := 1, title_en := some "Pop", title_ja := none, description_ja := none,
    platform := "FC", developer := none, publisher := none, release_date := none,
    genre := none, players := none, rating := none }

def wGameEmptyTitle : Game :=
  { id := 1, title_en := none, title_ja := none, description_ja := none,
    platform := "FC", developer := none, publisher := none, release_date := none,
    genre := none, players := none, rating := none }

def wRomUnlinked : RomFile :=
  { id := 1, path := "/roms/fc/x.nes", filename := "x.nes", size := 5,
    hash_crc32 := "C1", hash_md5 := "M1", hash_sha1 := "AA", platform := "FC",
    game_id := none }

def wRomLinked : RomFile :=
  { id := 2, path := "/roms/fc/y.nes", filename := "y.nes", size := 6,
    hash_crc32 := "C2", hash_md5 := "M2", hash_sha1 := "BB", platform := "FC",
    game_id := some 1 }

def wCatalog : Catalog :=
  { games := [wGamePop], rom_files := [wRomUnlinked, wRomLinked],
    next_game_id := 2, next_rom_id := 3 }

def wCatalogEmptyTitle : Catalog :=
  { games := [wGameEmptyTitle], rom_files := [wRomUnlinked, wRomLinked],
    next_game_id := 2, next_rom_id := 3 }

def wDr : DATRom :=
  { gameTitle := "Title1", platform := "GBA", crc32 := "", md5 := "", sha1 := "AA",
    size := 5 }

def wDrB : DATRom :=
  { gameTitle := "TitleB", platform := "GBA", crc32 := "", md5 := "", sha1 := "BB",
    size := 6 }

def wEntry : GameListEntry :=
  { filename := "x.nes", name := "NameJ", desc := "", releaseDate := "",
    developer := "", publisher := "", genre := "", players := "", rating := "" }

/-! ### Witnesses -/

/-- Witness for C9 at a concrete catalog: game link of row 0 survives an
upsert on its identity key. -/
theorem upsert_rescan_idempotent_frame_witness :
    (0 : Nat) < wCatalog.rom_files.length
    ∧ ∃ h2 : (0 : Nat) < (upsertRomFile wCatalog "/roms/fc/x.nes" "x.nes" 5 "C1" "M1" "AA"
        "FC").rom_files.length,
      ((upsertRomFile wCatalog "/roms/fc/x.nes" "x.nes" 5 "C1" "M1" "AA"
          "FC").rom_files.get ⟨0, h2⟩).game_id
        = (wCatalog.rom_files.get ⟨0, by decide⟩).game_id :=
  ⟨by decide,
    (upsert_rescan_idempotent_frame wCatalog "/roms/fc/x.nes" "x.nes" 5 "C1" "M1" "AA"
      "FC").2.1 0 (by decide)⟩

/-- Witness for C3 at a concrete catalog: the game with populated title
`Pop` is unchanged by a hash-match batch. -/
theorem hash_match_linked_title_only_witness :
    wCatalog.games[0]? = some wGamePop ∧ wGamePop.title_en = some "Pop" ∧ "Pop" ≠ ""
    ∧ (matchROMs wCatalog [wDr]).1.games[0]? = some wGamePop :=
  ⟨by decide, by decide, by decide,
    (hash_match_linked_title_only wCatalog wDr [wDr]).1 0 wGamePop "Pop"
      (by decide) (by decide) (by decide)⟩

/-- Witness for C4 at a concrete catalog: the unlinked rom with matching
SHA1 gets linked to a game titled with the record's title. -/
theorem hash_match_links_and_rerun_stable_witness :
    RomIdsNodup wCatalog ∧ wDr.sha1 ≠ "" ∧ wCatalog.rom_files[0]? = some wRomUnlinked
    ∧ wRomUnlinked.game_id = none ∧ wRomUnlinked.hash_sha1 = wDr.sha1
    ∧ ∃ gid, (matchROMs wCatalog [wDr]).1.rom_files[0]?
          = some { wRomUnlinked with game_id := some gid }
        ∧ ∃ g ∈ (matchROMs wCatalog [wDr]).1.games, g.id = gid
            ∧ g.title_en = some wDr.gameTitle :=
  ⟨by unfold RomIdsNodup; decide, by decide, by decide, by decide, by decide,
    (hash_match_links_and_rerun_stable wCatalog wDr []).1
      (by unfold RomIdsNodup; decide) (by decide) 0
      wRomUnlinked (by decide) (by decide) (by decide)⟩

/-- Witness for C5 at a concrete record: SHA1 wins and MD5/CRC32 are not
consulted. -/
theorem hash_priority_and_skip_witness :
    wDr.sha1 ≠ "" ∧ chooseHash wDr = some (HashField.sha1, wDr.sha1)
    ∧ matchROMsOne wCatalog { wDr with md5 := "ZZ", crc32 := "QQ" }
        = matchROMsOne wCatalog wDr :=
  ⟨by decide, ((hash_priority_and_skip wDr).1 (by decide)).1,
    ((hash_priority_and_skip wDr).1 (by decide)).2 wCatalog "ZZ" "QQ"⟩

/-- Witness for C6 at a concrete catalog: the rom matching the entry's
filename is linked to the entry's game. -/
theorem gamelist_match_relinks_witness :
    wCatalog.rom_files[0]? = some wRomUnlinked ∧ wRomUnlinked.platform = "FC"
    ∧ gamelistFilenameMatch wEntry.filename wRomUnlinked.filename = true
    ∧ ∃ gid, (matchByGameList wCatalog [wEntry] "FC").1.rom_files[0]?
          = some { wRomUnlinked with game_id := some gid }
        ∧ ∃ g ∈ (matchByGameList wCatalog [wEntry] "FC").1.games, g.id = gid
            ∧ g.title_ja = some wEntry.name :=
  ⟨by decide, by decide, by decide,
    (gamelist_match_relinks_hash_match_never wCatalog wEntry "FC" 0 wRomUnlinked
      (by decide) (by decide) (by decide)).1⟩

/-- Witness for C10 at a concrete catalog: a rom on platform FC is matched
by a GBA-platform record, filling its linked game's empty title. -/
theorem hash_match_no_platform_filter_witness :
    RomIdsNodup wCatalogEmptyTitle ∧ wDrB.sha1 ≠ ""
    ∧ wCatalogEmptyTitle.rom_files[1]? = some wRomLinked
    ∧ wRomLinked.hash_sha1 = wDrB.sha1 ∧ wRomLinked.platform ≠ wDrB.platform
    ∧ (matchROMs wCatalogEmptyTitle [wDrB]).1.games[0]?
        = some { wGameEmptyTitle with title_en := some wDrB.gameTitle } :=
  ⟨by unfold RomIdsNodup; decide, by decide, by decide, by decide, by decide,
    (hash_match_no_platform_filter wCatalogEmptyTitle wDrB
      (by unfold RomIdsNodup; decide) 1 wRomLinked
      (by decide) (by decide) (by decide) (by decide)).2.2 1 0 wGameEmptyTitle
        (by decide) (by decide) (by decide) (by decide)⟩

/-- Witness for C7 at a concrete dated header title. -/
theorem detect_platform_ordered_witness :
    strContains "Nintendo - Game Boy Advance (2024)" "Nintendo - Game Boy Advance" = true
    ∧ detectPlatformFromHeader "Nintendo - Game Boy Advance (2024)" = "GBA" :=
  ⟨by decide, (detect_platform_ordered "Nintendo - Game Boy Advance (2024)").1 (by decide)⟩

/-- Witness for the amended C1 at the counterexample catalog: the merged
row's developer is the incoming non-empty value. -/
theorem gamelist_merge_incoming_wins_witness :
    GameIdsNodup cexC1Catalog
    ∧ (mergeRow cexC1Entry cexC1Game).developer
        = coalesceNullif cexC1Entry.developer cexC1Game.developer :=
  ⟨by unfold GameIdsNodup; decide,
    ((gamelist_merge_incoming_wins cexC1Catalog cexC1Entry "FC" cexC1Game
      (by unfold GameIdsNodup; decide)
      (by decide) (by decide)).1 (mergeRow cexC1Entry cexC1Game) (by decide)
        (by decide)).2.2.1⟩

/-- Witness for the amended C2 at the counterexample scan: at most one row
is added for the whole container. -/
theorem scanZip_container_key_single_row_witness :
    PathsNodup emptyCatalog
    ∧ (scanZipContents "/roms/fc/game.zip" "FC" [cexC2EntryA, cexC2EntryB]
        emptyCatalog).1.rom_files.length ≤ emptyCatalog.rom_files.length + 1 :=
  ⟨by unfold PathsNodup; decide,
    (scanZip_container_key_single_row "/roms/fc/game.zip" "FC"
      [cexC2EntryA, cexC2EntryB] emptyCatalog (by unfold PathsNodup; decide)).2.1⟩

example : gamelistFilenameMatch "mega_man.zip" "dir/megaXman.zip" = true := by decide
example : gamelistFilenameMatch "1944j.zip" "DIR/1944J.ZIP" = true := by decide

theorem likeFuel_nilp (f : Nat) (s : List Char) : likeFuel f [] s = s.isEmpty := by
  cases f <;> rfl

theorem likeFuel_congr : ∀ (f1 f2 : Nat) (p s : List Char),
    p.length + s.length ≤ f1 → p.length + s.length ≤ f2 →
    likeFuel f1 p s = likeFuel f2 p s := by
  intro f1
  induction f1 with
  | zero =>
    intro f2 p s h1 _
    cases p with
    | nil => rw [likeFuel_nilp, likeFuel_nilp]
    | cons pc ps =>
      simp only [List.length_cons] at h1
      omega
  | succ f1 ih =>
    intro f2 p s h1 h2
    cases p with
    | nil => rw [likeFuel_nilp, likeFuel_nilp]
    | cons pc ps =>
      cases f2 with
      | zero =>
        simp only [List.length_cons] at h2
        omega
      | succ f2 =>
        cases s with
        | nil =>
          simp only [likeFuel]
          by_cases hpc : pc = '%'
          · rw [if_pos hpc, if_pos hpc]
            apply ih f2 ps []
            · simp only [List.length_cons, List.length_nil] at h1 ⊢
              omega
            · simp only [List.length_cons, List.length_nil] at h2 ⊢
              omega
          · rw [if_neg hpc, if_neg hpc]
        | cons ch t =>
          simp only [likeFuel]
          by_cases hpc : pc = '%'
          · rw [if_pos hpc, if_pos hpc]
            have e1 : likeFuel f1 ps (ch :: t) = likeFuel f2 ps (ch :: t) := by
              apply ih f2 ps (ch :: t)
              · simp only [List.length_cons] at h1 ⊢
                omega
              · simp only [List.length_cons] at h2 ⊢
                omega
            have e2 : likeFuel f1 (pc :: ps) t = likeFuel f2 (pc :: ps) t := by
              apply ih f2 (pc :: ps) t
              · simp only [List.length_cons] at h1 ⊢
                omega
              · simp only [List.length_cons] at h2 ⊢
                omega
            rw [e1, e2]
          · rw [if_neg hpc, if_neg hpc]
            have e3 : likeFuel f1 ps t = likeFuel f2 ps t := by
              apply ih f2 ps t
              · simp only [List.length_cons] at h1 ⊢
                omega
              · simp only [List.length_cons] at h2 ⊢
                omega
            rw [e3]

theorem likeChars_nil (s : List Char) : likeChars [] s = s.isEmpty := by
  unfold likeChars
  rw [likeFuel_nilp]

theorem likeChars_cons_nil (pc : Char) (ps : List Char) :
    likeChars (pc :: ps) [] = (if pc = '%' then likeChars ps [] else false) := by
  unfold likeChars
  have hstep : likeFuel ((pc :: ps).length + ([] : List Char).length) (pc :: ps) []
      = likeFuel ((ps.length + ([] : List Char).length) + 1) (pc :: ps) [] := by
    apply likeFuel_congr
    · exact Nat.le_refl _
    · simp only [List.length_cons, List.length_nil]
      omega
  rw [hstep]
  simp only [likeFuel]

theorem likeChars_cons_cons (pc : Char) (ps : List Char) (ch : Char) (t : List Char) :
    likeChars (pc :: ps) (ch :: t) =
      (if pc = '%' then
        likeChars ps (ch :: t) || likeChars (pc :: ps) t
      else
        (if pc = '_' then true else decide (lowerChar pc = lowerChar ch))
          && likeChars ps t) := by
  unfold likeChars
  have hstep : likeFuel ((pc :: ps).length + (ch :: t).length) (pc :: ps) (ch :: t)
      = likeFuel ((ps.length + (ch :: t).length) + 1) (pc :: ps) (ch :: t) := by
    apply likeFuel_congr
    · exact Nat.le_refl _
    · simp only [List.length_cons]
      omega
  rw [hstep]
  simp only [likeFuel]
  by_cases hpc : pc = '%'
  · rw [if_pos hpc, if_pos hpc]
    have e2 : likeFuel (ps.length + (ch :: t).length) (pc :: ps) t
        = likeFuel ((pc :: ps).length + t.length) (pc :: ps) t := by
      apply likeFuel_congr
      · simp only [List.length_cons]
        omega
      · exact Nat.le_refl _
    rw [e2]
  · rw [if_neg hpc, if_neg hpc]
    have e3 : likeFuel (ps.length + (ch :: t).length) ps t
        = likeFuel (ps.length + t.length) ps t := by
      apply likeFuel_congr
      · simp only [List.length_cons]
        omega
      · exact Nat.le_refl _
    rw [e3]


theorem likeChars_append_pct (ps s u : List Char)
    (h : likeChars ps s = true) : likeChars ('%' :: ps) (u ++ s) = true := by
  induction u with
  | nil =>
    cases s with
    | nil =>
      rw [List.nil_append, likeChars_cons_nil, if_pos rfl]
      exact h
    | cons ch t =>
      rw [List.nil_append, likeChars_cons_cons, if_pos rfl, Bool.or_eq_true]
      exact Or.inl h
  | cons c u ih =>
    rw [List.cons_append, likeChars_cons_cons, if_pos rfl, Bool.or_eq_true]
    exact Or.inr ih

theorem likeChars_pct_any (s : List Char) : likeChars ['%'] s = true := by
  have h := likeChars_append_pct [] [] s (by rw [likeChars_nil]; rfl)
  simpa using h

theorem likeChars_self_after (l ps s : List Char) (h : likeChars ps s = true) :
    likeChars (l ++ ps) (l ++ s) = true := by
  induction l with
  | nil => simpa using h
  | cons c l ih =>
    by_cases hc : c = '%'
    · subst hc
      have h2 := likeChars_append_pct (l ++ ps) (l ++ s) ['%'] ih
      simpa using h2
    · by_cases hu : c = '_'
      · subst hu
        rw [List.cons_append, List.cons_append, likeChars_cons_cons,
          if_neg (by decide), if_pos rfl]
        simpa using ih
      · rw [List.cons_append, List.cons_append, likeChars_cons_cons, if_neg hc,
          if_neg hu, Bool.and_eq_true]
        exact ⟨by simp, ih⟩

theorem likeChars_refl (l : List Char) : likeChars l l = true := by
  have h := likeChars_self_after l [] [] (by rw [likeChars_nil]; rfl)
  simpa using h

theorem shape_implies_like (fname filename : String)
    (h : SpecFilenameShape fname filename) :
    gamelistFilenameMatch fname filename = true := by
  unfold gamelistFilenameMatch
  rw [Bool.or_eq_true, Bool.or_eq_true]
  rcases h with h | ⟨t, rfl⟩ | ⟨t, rfl⟩
  · exact Or.inl (Or.inl (by simp [h]))
  · refine Or.inl (Or.inr ?_)
    have hpat : ("%/" ++ fname).data = '%' :: '/' :: fname.data := by
      rw [String.data_append]
      rfl
    have hstr : (t ++ "/" ++ fname).data = t.data ++ ('/' :: fname.data) := by
      simp [String.data_append]
    rw [hpat, hstr]
    exact likeChars_append_pct ('/' :: fname.data) ('/' :: fname.data) t.data
      (likeChars_refl _)
  · refine Or.inr ?_
    have hpat : (fname ++ "/%").data = (fname.data ++ ['/']) ++ ['%'] := by
      simp [String.data_append]
    have hstr : (fname ++ "/" ++ t).data = (fname.data ++ ['/']) ++ t.data := by
      simp [String.data_append]
    rw [hpat, hstr]
    exact likeChars_self_after (fname.data ++ ['/']) ['%'] t.data (likeChars_pct_any _)

/-! ### C8: counterexample and amended LIKE-shape characterization -/

def cexC8Rom : RomFile :=
  { id := 1, path := "/roms/fc/dir/megaXman.zip", filename := "dir/megaXman.zip",
    size := 5, hash_crc32 := "C", hash_md5 := "M", hash_sha1 := "S", platform := "FC",
    game_id := none }

def cexC8Catalog : Catalog :=
  { games := [], rom_files := [cexC8Rom], next_game_id := 1, next_rom_id := 2 }

def cexC8Entry : GameListEntry :=
  { filename := "mega_man.zip", name := "MegaMan", desc := "", releaseDate := "",
    developer := "", publisher := "", genre := "", players := "", rating := "" }

/-- C8 counterexample: for entry filename `mega_man.zip`, the rom file named
`dir/megaXman.zip` matches none of the three literal shapes (`F`,
`<anything>/F`, `F/<anything>`), yet the metadata-list match links it,
because the SQL pattern `%/mega_man.zip` treats `_` as a single-character
wildcard; likewise `DIR/1944J.ZIP` matches `%/1944j.zip` by SQLite's ASCII
case-insensitive LIKE while being of none of the literal shapes.  The
claimed "exactly those three shapes" is therefore false of the code. -/
theorem gamelist_match_beyond_shapes_cex :
    ¬ SpecFilenameShape "mega_man.zip" "dir/megaXman.zip"
    ∧ (matchByGameList cexC8Catalog [cexC8Entry] "FC").1.rom_files.map
        (fun r => r.game_id) = [some 1]
    ∧ gamelistFilenameMatch "1944j.zip" "DIR/1944J.ZIP" = true
    ∧ ¬ SpecFilenameShape "1944j.zip" "DIR/1944J.ZIP" := by
  refine ⟨?_, by decide, by decide, ?_⟩
  · rw [← literalFilenameMatch_iff_shape]
    decide
  · rw [← literalFilenameMatch_iff_shape]
    decide

/-- C8 amended: the rom files a metadata-list entry with filename `F` links
are exactly those on the platform whose display filename satisfies the SQL
condition `filename = F OR filename LIKE '%/'||F OR filename LIKE F||'/%'`
under SQLite semantics (`%` any sequence, `_` any one character, ASCII
case-insensitive LIKE): such a rom file is linked to the entry's game and
any other rom file is left entirely unchanged; the spec's three literal
shapes are a subset of this condition, so every file of one of those shapes
is still linked, but wildcard characters in `F` and ASCII case differences
admit further matches. -/
theorem gamelist_match_like_shapes (c : Catalog) (e : GameListEntry) (p : String)
    (hnd : RomIdsNodup c) (i : Nat) (r : RomFile) (hr : c.rom_files[i]? = some r) :
    (r.platform = p ∧ gamelistFilenameMatch e.filename r.filename = true →
      ∃ gid, (matchByGameList c [e] p).1.rom_files[i]? = some { r with game_id := some gid }
        ∧ ∃ g ∈ (matchByGameList c [e] p).1.games, g.id = gid ∧ g.title_ja = some e.name)
    ∧ (¬(r.platform = p ∧ gamelistFilenameMatch e.filename r.filename = true) →
      (matchByGameList c [e] p).1.rom_files[i]? = some r)
    ∧ (SpecFilenameShape e.filename r.filename →
      gamelistFilenameMatch e.filename r.filename = true) := by
  refine ⟨?_, ?_, ?_⟩
  · rintro ⟨hplat2, hfn⟩
    rw [matchByGameList_singleton]
    exact matchByGameListOne_links c e p i r hr hplat2 hfn
  · intro hno
    rw [matchByGameList_singleton]
    exact matchByGameListOne_untouched c e p hnd i r hr hno
  · exact shape_implies_like e.filename r.filename

/-- Witness for the amended C8 at a concrete catalog: the wildcard match
`dir/megaXman.zip` for entry filename `mega_man.zip` is linked. -/
theorem gamelist_match_like_shapes_witness :
    RomIdsNodup cexC8Catalog ∧ cexC8Rom.platform = "FC"
    ∧ gamelistFilenameMatch cexC8Entry.filename cexC8Rom.filename = true
    ∧ ∃ gid, (matchByGameList cexC8Catalog [cexC8Entry] "FC").1.rom_files[0]?
          = some { cexC8Rom with game_id := some gid }
        ∧ ∃ g ∈ (matchByGameList cexC8Catalog [cexC8Entry] "FC").1.games, g.id = gid
            ∧ g.title_ja = some cexC8Entry.name :=
  ⟨by unfold RomIdsNodup; decide, by decide, by decide,
    (gamelist_match_like_shapes cexC8Catalog cexC8Entry "FC"
      (by unfold RomIdsNodup; decide) 0 cexC8Rom (by decide)).1 ⟨rfl, by decide⟩⟩
end Romu
